import Mathlib

/-!
Verification of the keydev incremental artifact-traceability graph engine
(HistoryGraph in src/graph.py, change-set extraction in src/preprocess.py).

The embedding is shallow:
* node names, commit hashes, file paths and issue ids are strings;
* dates are integers at day granularity (the code compares dates at day
  granularity and uses timedelta.days on day-aligned dates);
* Python float arithmetic on scores and distances is modelled by exact
  rationals;
* the fallible operations (Python ZeroDivisionError) return an Except value;
* iteration of the manual DFS stack loop is modelled by a step function
  iterated with fuel, so that every definition stays executable.
-/

/-- Node-kind string used by graph.py. -/
def kDeveloper : String := "Developer"

/-- Node-kind string used by graph.py. -/
def kChangeSet : String := "ChangeSet"

/-- Node-kind string used by graph.py. -/
def kFile : String := "File"

/-- Node-kind string used by graph.py. -/
def kIssue : String := "Issue"

/-- Edge-kind string used by graph.py. -/
def kCommit : String := "commit"

/-- Edge-kind string used by graph.py. -/
def kInclude : String := "include"

/-- Edge-kind string used by graph.py. -/
def kLink : String := "link"

/-- Change-type string used by preprocess.py and graph.py. -/
def sADD : String := "ADD"

/-- Change-type string used by preprocess.py and graph.py. -/
def sMODIFY : String := "MODIFY"

/-- Change-type string used by preprocess.py and graph.py. -/
def sDELETE : String := "DELETE"

/-- Change-type string used by preprocess.py and graph.py. -/
def sRENAME : String := "RENAME"

/-- Team label returned by balanced_or_hero. -/
def sBalanced : String := "balanced"

/-- Team label returned by balanced_or_hero. -/
def sHero : String := "hero"

/-- Error tag for a Python ZeroDivisionError. -/
def zeroDivErr : String := "ZeroDivisionError"

/-!
## Reachability engine (HistoryGraph.find_reachable_files)

The DFS of graph.py lines 278-330 walks the networkx adjacency structure.
The context below is the read-only view the traversal uses: the adjacency
lists (iteration order of self._G[node]), the edge dates
(self._G[parent][child]["date"]), the node kinds (node_kinds dictionary),
the first included date of the data manager, the sliding window size and
the distance limit.
-/

/-- Read-only graph view used by the DFS of find_reachable_files. -/
structure DfsCtx where
  adj : String → List String
  dateOf : String → String → Option Int
  kind : String → String
  firstDate : Int
  windowSize : Nat
  limit : ℚ

/-- HistoryGraph._which_day: days from the first included date to the edge
date, counting inclusively (a same-day edge has day number 1). -/
def DfsCtx.which_day (ctx : DfsCtx) (edge_date : Int) : Int :=
  edge_date - ctx.firstDate + 1

/-- HistoryGraph._calculate_distance: a null date (developer-to-change-set
commit edge) costs 0; a dated edge costs 1 / recency with
recency = which_day / sliding_window_size. -/
def DfsCtx.calculate_distance (ctx : DfsCtx) (edge_date : Option Int) : ℚ :=
  match edge_date with
  | none => 0
  | some d => 1 / (((ctx.which_day d : Int) : ℚ) / (ctx.windowSize : ℚ))

/-- State of the manual DFS loop: the explicit stack of
(parent, accumulated distance, remaining iterator of children) frames,
the visited set and the accumulated result list. The head of the stack
list is the Python stack top (stack[-1]). -/
structure DfsState where
  stack : List (String × ℚ × List String)
  visited : List String
  acc : List String

/-- One iteration of the while-loop body of find_reachable_files.
Returns none when the stack is empty (the loop ends). -/
def dfsStep (ctx : DfsCtx) (st : DfsState) : Option DfsState :=
  match st.stack with
  | [] => none
  | (parent, distance_now, children) :: rest =>
    match children with
    | [] => some ⟨rest, st.visited, st.acc⟩
    | child :: children_rest =>
      let top := (parent, distance_now, children_rest)
      if child ∈ st.visited then some ⟨top :: rest, st.visited, st.acc⟩
      else
        let d := distance_now + ctx.calculate_distance (ctx.dateOf parent child)
        if ctx.limit < d then some ⟨top :: rest, st.visited, st.acc⟩
        else if ctx.kind child = kDeveloper then some ⟨top :: rest, st.visited, st.acc⟩
        else
          some ⟨(child, d, ctx.adj child) :: top :: rest,
                child :: st.visited,
                if ctx.kind child = kFile then st.acc ++ [child] else st.acc⟩

/-- Iterate dfsStep with fuel. With enough fuel this reaches the empty
stack, matching the Python loop termination. -/
def dfsRun (ctx : DfsCtx) : Nat → DfsState → DfsState
  | 0, st => st
  | fuel + 1, st =>
    match dfsStep ctx st with
    | none => st
    | some st2 => dfsRun ctx fuel st2

/-- Initial DFS state of find_reachable_files for a developer node. -/
def initState (ctx : DfsCtx) (developer : String) : DfsState :=
  ⟨[(developer, 0, ctx.adj developer)], [developer], []⟩

/-- HistoryGraph.find_reachable_files: the result list accumulated by the
DFS, given enough fuel. -/
def find_reachable_files (ctx : DfsCtx) (developer : String) (fuel : Nat) :
    List String :=
  (dfsRun ctx fuel (initState ctx developer)).acc

/-!
## Artifact graph (networkx Graph as used by HistoryGraph)

Undirected graph with a kind attribute on nodes and date / kind attributes
on edges, in insertion order. Only the networkx operations that graph.py
uses are modelled: add_node, add_edge (updating attributes when the edge
pair exists), remove_nodes_from, isolates, relabel_nodes.
-/

/-- One undirected edge with its attributes. -/
structure Gedge where
  src : String
  dst : String
  date : Option Int
  kind : String
deriving DecidableEq

/-- The artifact graph: node (name, kind) entries and edges, in insertion
order. -/
structure Agraph where
  nodes : List (String × String)
  edges : List Gedge
deriving DecidableEq

/-- Names of the nodes of the graph. -/
def Agraph.names (g : Agraph) : List String :=
  g.nodes.map (fun p => p.1)

/-- Whether edge e joins the unordered pair (u, v). -/
def sameEnds (e : Gedge) (u v : String) : Bool :=
  (e.src == u && e.dst == v) || (e.src == v && e.dst == u)

/-- networkx add_node with a kind attribute: a new node is appended, an
existing node keeps its position and gets its kind attribute overwritten. -/
def Agraph.addNode (g : Agraph) (n k : String) : Agraph :=
  if g.names.contains n then
    { g with nodes := g.nodes.map (fun p => if p.1 = n then (n, k) else p) }
  else
    { g with nodes := g.nodes ++ [(n, k)] }

/-- networkx add_edge: missing endpoints are created (without a kind
attribute, modelled by the empty string); if the unordered pair already
has an edge its attributes are updated in place, otherwise the edge is
appended. -/
def Agraph.addEdge (g : Agraph) (u v : String) (d : Option Int) (k : String) :
    Agraph :=
  let ns1 := if g.names.contains u then g.nodes else g.nodes ++ [(u, "")]
  let ns2 := if (ns1.map (fun p => p.1)).contains v then ns1 else ns1 ++ [(v, "")]
  let es := if g.edges.any (fun e => sameEnds e u v) then
      g.edges.map (fun e =>
        if sameEnds e u v then { e with date := d, kind := k } else e)
    else g.edges ++ [⟨u, v, d, k⟩]
  ⟨ns2, es⟩

/-- networkx remove_nodes_from: drop the listed nodes and every edge
incident to one of them; missing names are ignored. -/
def Agraph.removeNodesFrom (g : Agraph) (ns : List String) : Agraph :=
  { nodes := g.nodes.filter (fun p => !(ns.contains p.1)),
    edges := g.edges.filter (fun e => !(ns.contains e.src || ns.contains e.dst)) }

/-- networkx isolates: names of nodes with no incident edge. -/
def Agraph.isolates (g : Agraph) : List String :=
  (g.nodes.filter (fun p =>
    !(g.edges.any (fun e => e.src == p.1 || e.dst == p.1)))).map (fun p => p.1)

/-- HistoryGraph._remove_nodes: nothing happens on an empty list; otherwise
the listed nodes are removed and afterwards every node left with no edge
(networkx isolates) is removed as well. -/
def Agraph.remove_nodes (g : Agraph) (ns : List String) : Agraph :=
  if ns.isEmpty then g
  else
    let g1 := g.removeNodesFrom ns
    g1.removeNodesFrom g1.isolates

/-- Application of a rename mapping (a Python dict old-path to new-path) to
one name. -/
def applyMap (m : List (String × String)) (n : String) : String :=
  match m.lookup n with
  | some n2 => n2
  | none => n

/-- Endpoint relabeling of one edge. -/
def mapEdge (m : List (String × String)) (e : Gedge) : Gedge :=
  ⟨applyMap m e.src, applyMap m e.dst, e.date, e.kind⟩

/-- Rebuilding a node list after relabeling: a node whose new name is
already present overwrites that entry (networkx relabel merge), otherwise
it is appended. -/
def mergeNode (acc : List (String × String)) (p : String × String) :
    List (String × String) :=
  if acc.any (fun q => q.1 == p.1) then
    acc.map (fun q => if q.1 = p.1 then (q.1, p.2) else q)
  else
    acc ++ [p]

/-- Rebuilding an edge list after relabeling: an edge whose unordered pair
is already present overwrites that entry, otherwise it is appended. -/
def mergeEdge (acc : List Gedge) (e : Gedge) : List Gedge :=
  if acc.any (fun e0 => sameEnds e0 e.src e.dst) then
    acc.map (fun e0 =>
      if sameEnds e0 e.src e.dst then { e0 with date := e.date, kind := e.kind }
      else e0)
  else
    acc ++ [e]

/-- HistoryGraph._rename_nodes: nothing happens on an empty mapping;
otherwise nx.relabel_nodes rebuilds the graph with relabeled nodes and
edges, merging entries that collide. -/
def Agraph.rename_nodes (g : Agraph) (m : List (String × String)) : Agraph :=
  if m.isEmpty then g
  else
    { nodes := (g.nodes.map (fun p => (applyMap m p.1, p.2))).foldl mergeNode [],
      edges := (g.edges.map (mapEdge m)).foldl mergeEdge [] }

/-!
## Change sets and HistoryGraph mutation
-/

/-- One code change of a change set (preprocess.py output format). The
old_file_path field is only meaningful for RENAME changes. -/
structure CodeChange where
  change_type : String
  file_path : String
  old_file_path : String
deriving DecidableEq

/-- One change set of the dataset. -/
structure ChangeSet where
  commit_hash : String
  author : String
  date : Int
  issues : List String
  code_changes : List CodeChange
  num_files_in_project : Nat
deriving DecidableEq

/-- The files added or modified by a change set, in code-change order
(the files_add_modify list of _add_change_sets). -/
def files_add_modify (cs : ChangeSet) : List String :=
  (cs.code_changes.filter (fun cc =>
    !(cc.change_type == sDELETE) && !(cc.change_type == sRENAME))).map
      (fun cc => cc.file_path)

/-- The files deleted by a change set (the files_delete list of
_add_change_sets). -/
def files_delete (cs : ChangeSet) : List String :=
  (cs.code_changes.filter (fun cc => cc.change_type == sDELETE)).map
    (fun cc => cc.file_path)

/-- Insert or overwrite a key in an association list, keeping first
insertion order (Python dict assignment). -/
def upsert (m : List (String × String)) (key val : String) :
    List (String × String) :=
  if m.any (fun p => p.1 == key) then
    m.map (fun p => if p.1 = key then (key, val) else p)
  else
    m ++ [(key, val)]

/-- The rename mapping of a change set (the files_rename_dict of
_add_change_sets, mapping old path to new path). -/
def files_rename (cs : ChangeSet) : List (String × String) :=
  cs.code_changes.foldl (fun m cc =>
    if cc.change_type == sRENAME then upsert m cc.old_file_path cc.file_path
    else m) []

/-- The insertion part of _add_change_sets for one non-skipped change set:
ChangeSet node, Developer node, null-dated commit edge, File nodes with
dated include edges, Issue nodes with dated link edges. -/
def insert_change_set (g : Agraph) (cs : ChangeSet) : Agraph :=
  cs.issues.foldl (fun h i => h.addEdge cs.commit_hash i (some cs.date) kLink)
    (cs.issues.foldl (fun h i => h.addNode i kIssue)
      ((files_add_modify cs).foldl
        (fun h f => h.addEdge cs.commit_hash f (some cs.date) kInclude)
        ((files_add_modify cs).foldl (fun h f => h.addNode f kFile)
          (((g.addNode cs.commit_hash kChangeSet).addNode cs.author
            kDeveloper).addEdge cs.author cs.commit_hash none kCommit))))

/-- Application of one change set by _add_change_sets: renames first, then
deletions, then (unless the change set has more added or modified files
than num_files_limit) the insertion of its nodes and edges. -/
def add_change_set (limit : Nat) (g : Agraph) (cs : ChangeSet) : Agraph :=
  let g1 := g.rename_nodes (files_rename cs)
  let g2 := g1.remove_nodes (files_delete cs)
  if limit < (files_add_modify cs).length then g2
  else insert_change_set g2 cs

/-- HistoryGraph._add_change_sets over a list of change sets. -/
def add_change_sets (limit : Nat) (g : Agraph) (css : List ChangeSet) : Agraph :=
  css.foldl (add_change_set limit) g

/-- HistoryGraph._remove_change_sets: remove the change-set nodes, then
prune the nodes left with no edge. -/
def remove_change_sets (g : Agraph) (css : List ChangeSet) : Agraph :=
  g.remove_nodes (css.map (fun cs => cs.commit_hash))

/-- The graph mutation of HistoryGraph.forward_graph_one_day on a
successful slide: first the change sets leaving the window are removed,
then the change sets entering the window are added. -/
def forward_graph_one_day (limit : Nat) (g : Agraph)
    (removed added : List ChangeSet) : Agraph :=
  add_change_sets limit (remove_change_sets g removed) added

/-!
## Event traces of the window advance (for the operation-order claim)
-/

/-- Primitive graph mutations performed during a window advance. Incoming
rename and delete events are the per-change-set applications inside
_add_change_sets; insert is the node/edge insertion of one incoming change
set; evict is the removal of the change sets leaving the window. -/
inductive GEvent where
  | rename_files : List (String × String) → GEvent
  | delete_files : List String → GEvent
  | insert_cs : String → GEvent
  | evict_cs : List String → GEvent
deriving DecidableEq

/-- Event sequence emitted while applying one incoming change set. -/
def cs_trace (limit : Nat) (cs : ChangeSet) : List GEvent :=
  GEvent.rename_files (files_rename cs) :: GEvent.delete_files (files_delete cs) ::
    (if limit < (files_add_modify cs).length then []
     else [GEvent.insert_cs cs.commit_hash])

/-- _add_change_sets instrumented with its event trace. -/
def add_change_sets_tr (limit : Nat) (g : Agraph) (css : List ChangeSet) :
    Agraph × List GEvent :=
  css.foldl (fun p cs => (add_change_set limit p.1 cs, p.2 ++ cs_trace limit cs))
    (g, [])

/-- forward_graph_one_day instrumented with its event trace: the eviction
of the leaving change sets happens first, then the incoming change sets
are applied in order. -/
def forward_graph_one_day_tr (limit : Nat) (g : Agraph)
    (removed added : List ChangeSet) : Agraph × List GEvent :=
  let g1 := remove_change_sets g removed
  let r := add_change_sets_tr limit g1 added
  (r.1, GEvent.evict_cs (removed.map (fun cs => cs.commit_hash)) :: r.2)

/-- Whether an event is a rename or deletion carried by an incoming change
set. -/
def isIncomingChange : GEvent → Bool
  | GEvent.rename_files _ => true
  | GEvent.delete_files _ => true
  | _ => false

/-- Whether an event is the eviction of the leaving change sets. -/
def isEvict : GEvent → Bool
  | GEvent.evict_cs _ => true
  | _ => false

/-- The ordering property asserted by the specification: every rename or
deletion of an incoming change set happens before any removal of change
sets leaving the window. -/
def incoming_before_eviction (tr : List GEvent) : Prop :=
  ∀ i, (hi : i < tr.length) → ∀ j, (hj : j < tr.length) →
    isIncomingChange (tr.get ⟨i, hi⟩) = true → isEvict (tr.get ⟨j, hj⟩) = true →
    i < j

/-!
## Metrics layer (jacks, mavens, replacement, team shape)

The metric operations read the current window through get_developers()
(the devs list) and find_reachable_files (the reach function, one list of
files per developer, as cached by get_dev_to_reachable_files). They are
embedded as functions of that view.
-/

/-- util.sort_dict with by_value and reverse, composed with the threshold
filter of HistoryGraph._sort_and_filter: stable sort by value in
descending order, keeping the scores at least score_threshold. -/
def sort_and_filter (thr : ℚ) (d : List (String × ℚ)) : List (String × ℚ) :=
  (d.mergeSort (fun a b => decide (b.2 ≤ a.2))).filter (fun p => decide (thr ≤ p.2))

/-- The file-coverage score dictionary of get_jacks before sorting and
filtering (reachable-file count over the project-wide file count). -/
def jack_scores (numProj : Nat) (devs : List String)
    (reach : String → List String) : List (String × ℚ) :=
  devs.map (fun d => (d, ((reach d).length : ℚ) / (numProj : ℚ)))

/-- The jacks dictionary when the division is defined. -/
def jacks_list (thr : ℚ) (numProj : Nat) (devs : List String)
    (reach : String → List String) : List (String × ℚ) :=
  sort_and_filter thr (jack_scores numProj devs reach)

/-- HistoryGraph.get_jacks: divides every reachable-file count by the
project-wide file count; a Python ZeroDivisionError is raised when that
count is zero and at least one developer exists. -/
def get_jacks (thr : ℚ) (numProj : Nat) (devs : List String)
    (reach : String → List String) : Except String (List (String × ℚ)) :=
  if devs.isEmpty then Except.ok (sort_and_filter thr [])
  else if numProj = 0 then Except.error zeroDivErr
  else Except.ok (jacks_list thr numProj devs reach)

/-- Number of files reached by at least one developer
(HistoryGraph.get_num_reachable_files). -/
def num_reachable_files (devs : List String) (reach : String → List String) :
    Nat :=
  ((devs.flatMap reach).dedup).length

/-- Append a value to the list bound to a key, creating the key at the end
on first use (Python defaultdict(list) appending). -/
def pushVal {α : Type} (m : List (String × List α)) (key : String) (v : α) :
    List (String × List α) :=
  if m.any (fun p => p.1 == key) then
    m.map (fun p => if p.1 = key then (p.1, p.2 ++ [v]) else p)
  else
    m ++ [(key, [v])]

/-- HistoryGraph.get_file_to_devs: for every developer in order, record the
developer under each of its reachable files. -/
def file_to_devs (devs : List String) (reach : String → List String) :
    List (String × List String) :=
  devs.foldl (fun acc d => (reach d).foldl (fun acc2 f => pushVal acc2 f d) acc) []

/-- HistoryGraph.get_dev_to_rare_files: a file reached by exactly one
developer is rare and is recorded under that developer. -/
def dev_to_rare_files (devs : List String) (reach : String → List String) :
    List (String × List String) :=
  (file_to_devs devs reach).foldl (fun acc p =>
    match p.2 with
    | [d] => pushVal acc d p.1
    | _ => acc) []

/-- HistoryGraph.get_num_rare_files: total count of rare files. -/
def num_rare_files (devs : List String) (reach : String → List String) : Nat :=
  (((dev_to_rare_files devs reach).map (fun p => p.2.length)).sum)

/-- HistoryGraph.get_mavens: divides every rare-file count by the total
rare-file count; a Python ZeroDivisionError is raised when that total is
zero and some developer owns a rare-file entry. -/
def get_mavens (thr : ℚ) (devs : List String) (reach : String → List String) :
    Except String (List (String × ℚ)) :=
  let dtr := dev_to_rare_files devs reach
  if dtr.isEmpty then Except.ok (sort_and_filter thr [])
  else if num_rare_files devs reach = 0 then Except.error zeroDivErr
  else Except.ok (sort_and_filter thr (dtr.map (fun p =>
    (p.1, (p.2.length : ℚ) / (num_rare_files devs reach : ℚ)))))

/-- Set-union of a list into a deduplicated accumulator, keeping first
occurrences (covered_files.update of the Pareto loops). -/
def unionInto (c : List String) (l : List String) : List String :=
  l.foldl (fun c2 f => if f ∈ c2 then c2 else c2 ++ [f]) c

/-- The Pareto walk shared by find_last_sig_jack and find_last_sig_maven:
accumulate the covered files of each scored developer in order and return
the first developer whose cumulative coverage ratio reaches 0.8. -/
def pareto_loop (filesOf : String → List String) (total : ℚ)
    (covered : List String) : List (String × ℚ) → Option String
  | [] => none
  | (j, _) :: rest =>
    let covered2 := unionInto covered (filesOf j)
    if (8 : ℚ) / 10 ≤ (covered2.length : ℚ) / total then some j
    else pareto_loop filesOf total covered2 rest

/-- HistoryGraph.find_last_sig_jack (given a defined jacks dictionary). -/
def find_last_sig_jack (thr : ℚ) (numProj : Nat) (devs : List String)
    (reach : String → List String) : Option String :=
  pareto_loop reach ((num_reachable_files devs reach : Nat) : ℚ) []
    (jacks_list thr numProj devs reach)

/-- HistoryGraph.find_last_sig_maven: walks the mavens dictionary over the
rare files; the coverage division raises ZeroDivisionError when the loop
runs with zero total rare files. -/
def find_last_sig_maven (thr : ℚ) (devs : List String)
    (reach : String → List String) : Except String (Option String) :=
  match get_mavens thr devs reach with
  | Except.error e => Except.error e
  | Except.ok mavens =>
    if !mavens.isEmpty && num_rare_files devs reach == 0 then
      Except.error zeroDivErr
    else
      Except.ok (pareto_loop
        (fun m => ((dev_to_rare_files devs reach).lookup m).getD [])
        ((num_rare_files devs reach : Nat) : ℚ) [] mavens)

/-- HistoryGraph.find_replacement for a developer present in the graph:
none when the developer reaches no file or when fewer than 5 other
developers exist, otherwise the sorted and filtered overlap ratios. -/
def find_replacement (thr : ℚ) (devs : List String)
    (reach : String → List String) (developer : String) :
    Option (List (String × ℚ)) :=
  let developer_files := (reach developer).dedup
  if developer_files.isEmpty then none
  else
    let other_devs := devs.erase developer
    if other_devs.length < 5 then none
    else some (sort_and_filter thr (other_devs.map (fun d =>
      (d, ((developer_files.filter (fun f => f ∈ reach d)).length : ℚ) /
        (developer_files.length : ℚ)))))

/-- The input distribution of balanced_or_hero: every current developer
with the jack score the filtered jacks dictionary holds for it, or 0 when
the dictionary has no entry for it. -/
def balanced_knowledge (devs : List String) (jacks : List (String × ℚ)) :
    List (String × ℚ) :=
  devs.map (fun d => (d, (jacks.lookup d).getD 0))

/-- HistoryGraph.balanced_or_hero, with the three scipy hypothesis tests
(kstest uniformity, shapiro normality, skewness below 1) abstracted as
boolean tests on the score list, in the order the code evaluates them. -/
def balanced_or_hero (thr : ℚ) (numProj : Nat) (devs : List String)
    (reach : String → List String)
    (is_dist_uniform is_dist_normal is_dist_not_right_skewed :
      List ℚ → Bool) : Except String (Option String) :=
  match get_jacks thr numProj devs reach with
  | Except.error e => Except.error e
  | Except.ok jacks =>
    let dev_to_knowledge := balanced_knowledge devs jacks
    if dev_to_knowledge.length < 3 then Except.ok none
    else
      let knowledge_list := dev_to_knowledge.map (fun p => p.2)
      if is_dist_uniform knowledge_list || is_dist_normal knowledge_list ||
          is_dist_not_right_skewed knowledge_list then
        Except.ok (some sBalanced)
      else
        Except.ok (some sHero)

/-!
## Change-set extraction (preprocess.extract_change_sets)

The per-commit fusion of ADD and DELETE rows into RENAME changes. A raw
row is one filtered code_change row (change type, file path, added and
deleted line counts); rows are grouped by base file name and each group
queue is scanned for matching ADD/DELETE pairs.
-/

/-- One raw code-change row of a commit. -/
structure CChange where
  ctype : String
  fpath : String
  num_added : Int
  num_deleted : Int
deriving DecidableEq

/-- The base file name of a path: the part after the last slash
(fpath[fpath.rfind("/") + 1 :]), computed over the character list. -/
def fname_of (fpath : String) : String :=
  String.mk (fpath.data.foldl (fun acc ch => if ch = '/' then [] else acc ++ [ch]) [])

/-- Grouping of the rows of one commit by base file name, in first-seen
order (the fname_to_cchanges defaultdict). -/
def fname_to_cchanges (rows : List CChange) : List (String × List CChange) :=
  rows.foldl (fun acc cc => pushVal acc (fname_of cc.fpath) cc) []

/-- One extracted code change as emitted into the dataset. -/
structure ExtractedChange where
  file_path : String
  change_type : String
  old_file_path : Option String
deriving DecidableEq

/-- The queue scan of extract_change_sets for one base-name group: pop the
head; an ADD (resp. DELETE) head fuses with the first later DELETE (resp.
ADD) whose deleted count equals its added count into one RENAME, removing
the partner from the queue; otherwise the head is emitted unchanged. -/
def process_queue : Nat → List CChange → List ExtractedChange
  | 0, _ => []
  | _, [] => []
  | fuel + 1, cchange :: queue =>
    if cchange.ctype == sADD then
      match queue.find? (fun cc =>
          cc.ctype == sDELETE && cc.num_deleted == cchange.num_added) with
      | some cc =>
        ⟨cchange.fpath, sRENAME, some cc.fpath⟩ :: process_queue fuel (queue.erase cc)
      | none => ⟨cchange.fpath, sADD, none⟩ :: process_queue fuel queue
    else if cchange.ctype == sDELETE then
      match queue.find? (fun cc =>
          cc.ctype == sADD && cc.num_added == cchange.num_deleted) with
      | some cc =>
        ⟨cc.fpath, sRENAME, some cchange.fpath⟩ :: process_queue fuel (queue.erase cc)
      | none => ⟨cchange.fpath, sDELETE, none⟩ :: process_queue fuel queue
    else
      ⟨cchange.fpath, cchange.ctype, none⟩ :: process_queue fuel queue

/-- All extracted code changes of one commit: every base-name group queue
is processed in grouping order. -/
def extract_commit_changes (rows : List CChange) : List ExtractedChange :=
  (fname_to_cchanges rows).flatMap (fun p => process_queue p.2.length p.2)

/-- Concrete DFS context used by the closed witness instances: developer d,
change set c1 committed on the last window day (date 364, first date 0,
window 365), a file f1 on it, and a node old whose edge date 0 gives the
maximal cost 365. -/
def ctxW : DfsCtx where
  adj := fun n =>
    if n = "d" then ["c1"]
    else if n = "c1" then ["d", "f1"]
    else if n = "f1" then ["c1"]
    else []
  dateOf := fun u v =>
    if (u = "d" ∧ v = "c1") ∨ (u = "c1" ∧ v = "d") then none
    else if u = "old" ∨ v = "old" then some 0
    else some 364
  kind := fun n =>
    if n = "d" then kDeveloper
    else if n = "c1" then kChangeSet
    else kFile
  firstDate := 0
  windowSize := 365
  limit := 10

/-- Specification-side coverage of a prefix of a sorted score list: the
number of distinct files reached by the first m scored developers. -/
def covered_card (filesOf : String → List String) (l : List (String × ℚ))
    (m : Nat) : Nat :=
  (((l.take m).flatMap (fun p => filesOf p.1)).toFinset).card

/-- Concrete reach function for the closed witness instances: developer a
reaches the single file f1, everyone else reaches nothing. -/
def reachW1 : String → List String :=
  fun d => if d = "a" then ["f1"] else []

/-- Whether an edge touches the node n. -/
def Gedge.inc (e : Gedge) (n : String) : Prop :=
  e.src = n ∨ e.dst = n

/-- Whether the node named n has at least one incident edge. -/
def Agraph.Incident (g : Agraph) (n : String) : Prop :=
  ∃ e ∈ g.edges, e.inc n

/-- The graph invariant maintained by the window advance: every node has
at least one incident edge (networkx isolates is empty). -/
def Agraph.NoIsolates (g : Agraph) : Prop :=
  ∀ p ∈ g.nodes, g.Incident p.1

/-- Whether the graph holds an edge joining u and v with the given date
and kind attributes. -/
def Agraph.hasEdgeAttr (g : Agraph) (u v : String) (d : Option Int)
    (k : String) : Prop :=
  ∃ e ∈ g.edges, sameEnds e u v = true ∧ e.date = d ∧ e.kind = k

/-- The kind attribute of the node named n. -/
def Agraph.kindOf (g : Agraph) (n : String) : Option String :=
  (g.nodes.find? (fun p => p.1 == n)).map (fun p => p.2)

/-- Concrete change set leaving the window in the closed instances:
commit c1 by alice adding the file A. -/
def csO : ChangeSet :=
  ⟨"c1", "alice", 0, [], [⟨sADD, "A", ""⟩], 1⟩

/-- Concrete change set entering the window in the closed instances:
commit c2 by bob renaming the file A to B. -/
def csI : ChangeSet :=
  ⟨"c2", "bob", 1, [], [⟨sRENAME, "B", "A"⟩], 1⟩

/-- Concrete artifact graph for the closed instances: change set c1 by
alice including the file A. -/
def gW2 : Agraph :=
  ⟨[("c1", kChangeSet), ("alice", kDeveloper), ("A", kFile)],
   [⟨"alice", "c1", none, kCommit⟩, ⟨"c1", "A", some 0, kInclude⟩]⟩

/-- Concrete large change set for the closed instances: 51 DELETE code
changes on distinct files (f, ff, fff, ...) and no added or modified
files. -/
def csBig : ChangeSet :=
  ⟨"c", "alice", 0, [],
   (List.range 51).map (fun i =>
     ⟨sDELETE, String.mk (List.replicate (i + 1) 'f'), ""⟩), 1⟩

/-!
## Theorems
-/

theorem dfsStep_some_cases (ctx : DfsCtx) (st st2 : DfsState)
    (h : dfsStep ctx st = some st2) :
    (∃ p dist rest, st.stack = (p, dist, ([] : List String)) :: rest ∧
      st2.stack = rest ∧ st2.visited = st.visited ∧ st2.acc = st.acc) ∨
    (∃ p dist c cs2 rest, st.stack = (p, dist, c :: cs2) :: rest ∧
      ((st2.stack = (p, dist, cs2) :: rest ∧ st2.visited = st.visited ∧
          st2.acc = st.acc) ∨
       (c ∉ st.visited ∧ ctx.kind c ≠ kDeveloper ∧
        st2.stack = (c, dist + ctx.calculate_distance (ctx.dateOf p c), ctx.adj c) ::
          (p, dist, cs2) :: rest ∧
        st2.visited = c :: st.visited ∧
        st2.acc = (if ctx.kind c = kFile then st.acc ++ [c] else st.acc)))) := by
  obtain ⟨stack, v, a⟩ := st
  cases stack with
  | nil => simp [dfsStep] at h
  | cons fr rest =>
    obtain ⟨p, dist, cs⟩ := fr
    cases cs with
    | nil =>
      left
      refine ⟨p, dist, rest, rfl, ?_⟩
      have h2 : (⟨rest, v, a⟩ : DfsState) = st2 := by
        have := h
        simp only [dfsStep] at this
        exact Option.some.inj this
      rw [← h2]
      exact ⟨rfl, rfl, rfl⟩
    | cons c cs2 =>
      right
      refine ⟨p, dist, c, cs2, rest, rfl, ?_⟩
      simp only [dfsStep] at h
      by_cases h1 : c ∈ v
      · rw [if_pos h1] at h
        have h2 := Option.some.inj h
        left
        rw [← h2]
        exact ⟨rfl, rfl, rfl⟩
      · rw [if_neg h1] at h
        by_cases hd : ctx.limit < dist + ctx.calculate_distance (ctx.dateOf p c)
        · rw [if_pos hd] at h
          have h2 := Option.some.inj h
          left
          rw [← h2]
          exact ⟨rfl, rfl, rfl⟩
        · rw [if_neg hd] at h
          by_cases hk : ctx.kind c = kDeveloper
          · rw [if_pos hk] at h
            have h2 := Option.some.inj h
            left
            rw [← h2]
            exact ⟨rfl, rfl, rfl⟩
          · rw [if_neg hk] at h
            have h2 := Option.some.inj h
            right
            rw [← h2]
            exact ⟨h1, hk, rfl, rfl, rfl⟩

theorem dfsRun_inv (ctx : DfsCtx) (P : DfsState → Prop)
    (hP : ∀ st st2, dfsStep ctx st = some st2 → P st → P st2) :
    ∀ (fuel : Nat) (st : DfsState), P st → P (dfsRun ctx fuel st) := by
  intro fuel
  induction fuel with
  | zero => exact fun st h => h
  | succ n ih =>
    intro st h
    simp only [dfsRun]
    cases hs : dfsStep ctx st with
    | none => exact h
    | some st2 => exact ih st2 (hP st st2 hs h)

theorem dfsStep_nodup_inv (ctx : DfsCtx) (st st2 : DfsState)
    (h : dfsStep ctx st = some st2)
    (hI : st.visited.Nodup ∧ st.acc.Nodup ∧ ∀ x ∈ st.acc, x ∈ st.visited) :
    st2.visited.Nodup ∧ st2.acc.Nodup ∧ ∀ x ∈ st2.acc, x ∈ st2.visited := by
  obtain ⟨hv, ha, hav⟩ := hI
  rcases dfsStep_some_cases ctx st st2 h with
    ⟨p, dist, rest, hst, h1, h2, h3⟩ |
    ⟨p, dist, c, cs2, rest, hst, ⟨h1, h2, h3⟩ | ⟨hcv, hck, h1, h2, h3⟩⟩
  · rw [h2, h3]; exact ⟨hv, ha, hav⟩
  · rw [h2, h3]; exact ⟨hv, ha, hav⟩
  · rw [h2, h3]
    refine ⟨List.nodup_cons.2 ⟨hcv, hv⟩, ?_, ?_⟩
    · by_cases hk : ctx.kind c = kFile
      · rw [if_pos hk]
        have hca : c ∉ st.acc := fun hm => hcv (hav c hm)
        simp [List.nodup_append, ha, hca]
      · rw [if_neg hk]; exact ha
    · intro x hx
      by_cases hk : ctx.kind c = kFile
      · rw [if_pos hk] at hx
        rcases List.mem_append.1 hx with hx | hx
        · exact List.mem_cons_of_mem _ (hav x hx)
        · simp only [List.mem_singleton] at hx
          rw [hx]; exact List.mem_cons_self _ _
      · rw [if_neg hk] at hx
        exact List.mem_cons_of_mem _ (hav x hx)

theorem dfsStep_kind_inv (ctx : DfsCtx) (st st2 : DfsState)
    (h : dfsStep ctx st = some st2)
    (hI : (∀ x ∈ st.acc, ctx.kind x = kFile) ∧
      (∀ x ∈ st.visited, ctx.kind x = kFile → x ∈ st.acc)) :
    (∀ x ∈ st2.acc, ctx.kind x = kFile) ∧
      (∀ x ∈ st2.visited, ctx.kind x = kFile → x ∈ st2.acc) := by
  obtain ⟨h1, h2⟩ := hI
  rcases dfsStep_some_cases ctx st st2 h with
    ⟨p, dist, rest, hst, e1, e2, e3⟩ |
    ⟨p, dist, c, cs2, rest, hst, ⟨e1, e2, e3⟩ | ⟨hcv, hck, e1, e2, e3⟩⟩
  · rw [e2, e3]; exact ⟨h1, h2⟩
  · rw [e2, e3]; exact ⟨h1, h2⟩
  · rw [e2, e3]
    constructor
    · intro x hx
      by_cases hk : ctx.kind c = kFile
      · rw [if_pos hk] at hx
        rcases List.mem_append.1 hx with hx | hx
        · exact h1 x hx
        · simp only [List.mem_singleton] at hx
          rw [hx]; exact hk
      · rw [if_neg hk] at hx
        exact h1 x hx
    · intro x hx hxk
      rcases List.mem_cons.1 hx with hx | hx
      · subst hx
        rw [if_pos hxk]
        exact List.mem_append.2 (Or.inr (List.mem_singleton.2 rfl))
      · have := h2 x hx hxk
        by_cases hk : ctx.kind c = kFile
        · rw [if_pos hk]; exact List.mem_append.2 (Or.inl this)
        · rw [if_neg hk]; exact this

/-- Claim C1: find_reachable_files is a depth-first traversal in which a
null-date commit edge adds 0 to the accumulated distance and a dated edge
adds 1 / recency with recency = ((edgeDate - firstIncludedDate) + 1) /
windowSize (day counting inclusive); a child is pruned, not expanded,
exactly when it was already visited, or the accumulated distance would
exceed the distance limit, or it is itself a Developer node; every File
node reached before pruning is collected, and Developer and Issue nodes
are never collected. -/
theorem dfs_cost_prune_collect (ctx : DfsCtx) (v a : List String)
    (p c : String) (dist : ℚ) (cs2 : List String)
    (rest : List (String × ℚ × List String)) :
    ctx.calculate_distance none = 0 ∧
    (∀ d : Int, ctx.calculate_distance (some d) =
      1 / (((d - ctx.firstDate + 1 : Int) : ℚ) / (ctx.windowSize : ℚ))) ∧
    ((c ∈ v ∨ ctx.limit < dist + ctx.calculate_distance (ctx.dateOf p c) ∨
        ctx.kind c = kDeveloper) →
      dfsStep ctx ⟨(p, dist, c :: cs2) :: rest, v, a⟩ =
        some ⟨(p, dist, cs2) :: rest, v, a⟩) ∧
    (c ∉ v → ¬(ctx.limit < dist + ctx.calculate_distance (ctx.dateOf p c)) →
      ctx.kind c ≠ kDeveloper →
      dfsStep ctx ⟨(p, dist, c :: cs2) :: rest, v, a⟩ =
        some ⟨(c, dist + ctx.calculate_distance (ctx.dateOf p c), ctx.adj c) ::
          (p, dist, cs2) :: rest, c :: v,
          if ctx.kind c = kFile then a ++ [c] else a⟩) ∧
    (∀ (dev : String) (fuel : Nat), ctx.kind dev = kDeveloper →
      (∀ x ∈ (dfsRun ctx fuel (initState ctx dev)).acc, ctx.kind x = kFile) ∧
      (∀ x ∈ (dfsRun ctx fuel (initState ctx dev)).visited,
        ctx.kind x = kFile → x ∈ (dfsRun ctx fuel (initState ctx dev)).acc)) := by
  refine ⟨rfl, fun d => rfl, ?_, ?_, ?_⟩
  · intro hor
    simp only [dfsStep]
    by_cases h1 : c ∈ v
    · rw [if_pos h1]
    · rw [if_neg h1]
      by_cases hd : ctx.limit < dist + ctx.calculate_distance (ctx.dateOf p c)
      · rw [if_pos hd]
      · rw [if_neg hd]
        have hk : ctx.kind c = kDeveloper := by
          rcases hor with h | h | h
          · exact absurd h h1
          · exact absurd h hd
          · exact h
        rw [if_pos hk]
  · intro h1 hd hk
    simp only [dfsStep]
    rw [if_neg h1, if_neg hd, if_neg hk]
  · intro dev fuel hdev
    have hbase : (∀ x ∈ (initState ctx dev).acc, ctx.kind x = kFile) ∧
        (∀ x ∈ (initState ctx dev).visited,
          ctx.kind x = kFile → x ∈ (initState ctx dev).acc) := by
      constructor
      · intro x hx; simp [initState] at hx
      · intro x hx hxk
        simp only [initState, List.mem_singleton] at hx
        rw [hx] at hxk
        rw [hdev] at hxk
        exact absurd hxk (by decide)
    exact dfsRun_inv ctx _ (dfsStep_kind_inv ctx) fuel (initState ctx dev) hbase

/-- Closed witness for claim C1: on the concrete context ctxW, an
already-visited child is pruned without state change, and every collected
node of a full run from the developer d is a File node. -/
theorem dfs_cost_prune_collect_w :
    dfsStep ctxW ⟨[("c1", (0 : ℚ), ["d", "f1"])], ["d", "c1"], []⟩ =
      some ⟨[("c1", (0 : ℚ), ["f1"])], ["d", "c1"], []⟩ ∧
    (∀ x ∈ (dfsRun ctxW 10 (initState ctxW "d")).acc, ctxW.kind x = kFile) := by
  constructor
  · exact (dfs_cost_prune_collect ctxW ["d", "c1"] [] "c1" "d" 0 ["f1"] []).2.2.1
      (Or.inl (by decide))
  · exact ((dfs_cost_prune_collect ctxW [] [] "p" "c" 0 [] []).2.2.2.2 "d" 10
      (by decide)).1

/-- Claim C10: a child rejected because the accumulated distance would
exceed the distance limit is not marked visited (the visited set is
unchanged, so the node stays reachable later via a cheaper path), and the
result list of a traversal never repeats a file, every collected node
being in the visited set. -/
theorem dfs_prune_unvisited_nodup (ctx : DfsCtx) (v a : List String)
    (p c : String) (dist : ℚ) (cs2 : List String)
    (rest : List (String × ℚ × List String)) :
    (c ∉ v → ctx.limit < dist + ctx.calculate_distance (ctx.dateOf p c) →
      dfsStep ctx ⟨(p, dist, c :: cs2) :: rest, v, a⟩ =
        some ⟨(p, dist, cs2) :: rest, v, a⟩) ∧
    (∀ (dev : String) (fuel : Nat),
      (dfsRun ctx fuel (initState ctx dev)).acc.Nodup ∧
      ∀ x ∈ (dfsRun ctx fuel (initState ctx dev)).acc,
        x ∈ (dfsRun ctx fuel (initState ctx dev)).visited) := by
  constructor
  · intro h1 hd
    simp only [dfsStep]
    rw [if_neg h1, if_pos hd]
  · intro dev fuel
    have hbase : (initState ctx dev).visited.Nodup ∧
        (initState ctx dev).acc.Nodup ∧
        ∀ x ∈ (initState ctx dev).acc, x ∈ (initState ctx dev).visited := by
      refine ⟨List.nodup_singleton _, List.nodup_nil, ?_⟩
      intro x hx; simp [initState] at hx
    have := dfsRun_inv ctx _ (dfsStep_nodup_inv ctx) fuel (initState ctx dev) hbase
    exact ⟨this.2.1, this.2.2⟩

/-- Closed witness for claim C10: on ctxW, the node old (edge cost 365,
above the limit 10) is skipped without being marked visited, and a full
run from d collects each file once. -/
theorem dfs_prune_unvisited_nodup_w :
    dfsStep ctxW ⟨[("c1", (0 : ℚ), ["old"])], ["d", "c1"], []⟩ =
      some ⟨[("c1", (0 : ℚ), [])], ["d", "c1"], []⟩ ∧
    (dfsRun ctxW 10 (initState ctxW "d")).acc.Nodup := by
  constructor
  · refine (dfs_prune_unvisited_nodup ctxW ["d", "c1"] [] "c1" "old" 0 [] []).1
      (by decide) ?_
    have hc : ctxW.calculate_distance (ctxW.dateOf "c1" "old") = 365 := by
      simp [ctxW, DfsCtx.calculate_distance, DfsCtx.which_day]
    rw [hc]
    norm_num [ctxW]
  · exact ((dfs_prune_unvisited_nodup ctxW [] [] "p" "c" 0 [] []).2 "d" 10).1

/-- Counterexample for claim C9: a commit with an ADD of x/New.java
(num_added 12) and a DELETE of x/Old.java (num_deleted 12) is NOT fused
into one RENAME, because the fusion scan groups rows by base file name
and New.java and Old.java are different base names; the extraction emits
the ADD and the DELETE as two independent code changes. -/
theorem rename_fusion_counterexample :
    extract_commit_changes
        [⟨sADD, "x/New.java", 12, 0⟩, ⟨sDELETE, "x/Old.java", 0, 12⟩] =
      [⟨"x/New.java", sADD, none⟩, ⟨"x/Old.java", sDELETE, none⟩] := by
  decide

/-- Claim C9 (amended): the ADD/DELETE to RENAME fusion applies exactly to
rows with the same base file name: a commit with an ADD of a path p and a
DELETE of a path q whose base names agree and whose added count equals the
deleted count emits the single RENAME with file_path p and old_file_path
q, not two independent changes. -/
theorem rename_fusion_same_basename (p q : String) (n : Int)
    (h : fname_of p = fname_of q) :
    extract_commit_changes [⟨sADD, p, n, 0⟩, ⟨sDELETE, q, 0, n⟩] =
      [⟨p, sRENAME, some q⟩] := by
  have h2 : fname_to_cchanges [⟨sADD, p, n, 0⟩, ⟨sDELETE, q, 0, n⟩] =
      [(fname_of p, [⟨sADD, p, n, 0⟩, ⟨sDELETE, q, 0, n⟩])] := by
    simp [fname_to_cchanges, pushVal, h]
  simp [extract_commit_changes, h2, process_queue]

/-- Closed witness for the amended claim C9: a rename of y/Name.java to
x/Name.java moving a file across directories is fused. -/
theorem rename_fusion_same_basename_w :
    extract_commit_changes
        [⟨sADD, "x/Name.java", 12, 0⟩, ⟨sDELETE, "y/Name.java", 0, 12⟩] =
      [⟨"x/Name.java", sRENAME, some "y/Name.java"⟩] :=
  rename_fusion_same_basename "x/Name.java" "y/Name.java" 12 (by decide)

theorem mem_sort_and_filter {thr : ℚ} {d : List (String × ℚ)} {p : String × ℚ} :
    p ∈ sort_and_filter thr d ↔ p ∈ d ∧ thr ≤ p.2 := by
  unfold sort_and_filter
  rw [List.mem_filter, (List.mergeSort_perm d _).mem_iff]
  simp

theorem pairwise_sort_and_filter (thr : ℚ) (d : List (String × ℚ)) :
    (sort_and_filter thr d).Pairwise (fun a b => b.2 ≤ a.2) := by
  unfold sort_and_filter
  refine List.Pairwise.sublist (List.filter_sublist _) ?_
  have h := @List.sorted_mergeSort (String × ℚ) (fun a b => decide (b.2 ≤ a.2))
    (fun a b c hab hbc => by
      simp only [decide_eq_true_eq] at *
      exact le_trans hbc hab)
    (fun a b => by
      simp only [Bool.or_eq_true, decide_eq_true_eq]
      exact le_total b.2 a.2) d
  exact h.imp (fun hab => by simpa using hab)

theorem lookup_eq_some_of_nodup {β : Type} {l : List (String × β)}
    (h : (l.map Prod.fst).Nodup) {k : String} {v : β} :
    l.lookup k = some v ↔ (k, v) ∈ l := by
  induction l with
  | nil => simp [List.lookup]
  | cons a t ih =>
    obtain ⟨a1, a2⟩ := a
    simp only [List.map_cons, List.nodup_cons, List.mem_map] at h
    by_cases hk : a1 = k
    · subst hk
      simp only [List.lookup, beq_self_eq_true]
      constructor
      · intro hv
        have : a2 = v := by
          have := Option.some.inj hv
          exact this
        rw [← this]
        exact List.mem_cons_self _ _
      · intro hm
        rcases List.mem_cons.1 hm with hm | hm
        · injection hm with h1 h2
          rw [h2]
        · exact absurd ⟨(a1, v), hm, rfl⟩ h.1
    · have hbeq : (k == a1) = false := beq_eq_false_iff_ne.2 (fun h2 => hk h2.symm)
      simp only [List.lookup, hbeq]
      rw [ih h.2]
      constructor
      · exact fun hm => List.mem_cons_of_mem _ hm
      · intro hm
        rcases List.mem_cons.1 hm with hm | hm
        · injection hm with h1 h2
          exact absurd h1.symm hk
        · exact hm

theorem pushVal_entries_nonempty {α : Type} (m : List (String × List α))
    (key : String) (v : α) (h : ∀ p ∈ m, p.2 ≠ []) :
    ∀ p ∈ pushVal m key v, p.2 ≠ [] := by
  intro p hp
  unfold pushVal at hp
  by_cases hc : m.any (fun q => q.1 == key)
  · rw [if_pos hc] at hp
    rcases List.mem_map.1 hp with ⟨q, hq, hmap⟩
    by_cases hqk : q.1 = key
    · rw [if_pos hqk] at hmap
      rw [← hmap]
      simp
    · rw [if_neg hqk] at hmap
      rw [← hmap]
      exact h q hq
  · rw [if_neg hc] at hp
    rcases List.mem_append.1 hp with hp | hp
    · exact h p hp
    · simp only [List.mem_singleton] at hp
      rw [hp]
      simp

theorem dev_to_rare_files_entries_nonempty (devs : List String)
    (reach : String → List String) :
    ∀ p ∈ dev_to_rare_files devs reach, p.2 ≠ [] := by
  unfold dev_to_rare_files
  generalize file_to_devs devs reach = l
  have haux : ∀ (l2 : List (String × List String))
      (acc : List (String × List String)), (∀ p ∈ acc, p.2 ≠ []) →
      ∀ p ∈ l2.foldl (fun acc2 q =>
        match q.2 with
        | [d] => pushVal acc2 d q.1
        | _ => acc2) acc, p.2 ≠ [] := by
    intro l2
    induction l2 with
    | nil => exact fun acc h p hp => h p hp
    | cons q t ih =>
      intro acc h
      simp only [List.foldl_cons]
      apply ih
      match hq : q.2 with
      | [d] => exact pushVal_entries_nonempty acc d q.1 h
      | [] => exact h
      | d1 :: d2 :: ds => exact h
  exact haux l [] (by simp)

theorem num_rare_files_zero_iff (devs : List String)
    (reach : String → List String) :
    num_rare_files devs reach = 0 ↔ dev_to_rare_files devs reach = [] := by
  unfold num_rare_files
  constructor
  · intro h
    cases hd : dev_to_rare_files devs reach with
    | nil => rfl
    | cons p t =>
      exfalso
      rw [hd] at h
      simp only [List.map_cons, List.sum_cons, Nat.add_eq_zero] at h
      have hne := dev_to_rare_files_entries_nonempty devs reach p
        (by rw [hd]; exact List.mem_cons_self _ _)
      exact hne (List.length_eq_zero.1 h.1)
  · intro h
    rw [h]
    simp

/-- Counterexample for claim C7: get_jacks does not return an error-free
no-result value on a window with zero project-wide files; with at least
one developer present the score division raises ZeroDivisionError. -/
theorem jacks_zero_files_error :
    get_jacks (1 / 2) 0 ["a"] reachW1 = Except.error zeroDivErr := by
  rfl

/-- Claim C7 (amended): with zero rare files get_mavens returns the empty
dictionary and find_last_sig_maven returns no maven, without error (the
rare-file division can in fact never raise, since a nonempty rare-file
dictionary forces a positive rare-file count); get_jacks with zero
project-wide files returns the empty dictionary without error only when no
developer exists, and raises ZeroDivisionError otherwise. -/
theorem degenerate_no_result (thr : ℚ) (devs : List String)
    (reach : String → List String)
    (hzero : num_rare_files devs reach = 0) :
    get_mavens thr devs reach = Except.ok [] ∧
    find_last_sig_maven thr devs reach = Except.ok none ∧
    (∀ (devs2 : List String) (reach2 : String → List String),
      ∃ r, get_mavens thr devs2 reach2 = Except.ok r) ∧
    (∀ (reach2 : String → List String),
      get_jacks thr 0 [] reach2 = Except.ok []) := by
  have hmain : ∀ (devs2 : List String) (reach2 : String → List String),
      ∃ r, get_mavens thr devs2 reach2 = Except.ok r := by
    intro devs2 reach2
    unfold get_mavens
    by_cases hd : (dev_to_rare_files devs2 reach2).isEmpty
    · rw [if_pos hd]
      exact ⟨_, rfl⟩
    · rw [if_neg hd]
      have hne : ¬ num_rare_files devs2 reach2 = 0 := by
        intro h0
        rw [(num_rare_files_zero_iff devs2 reach2).1 h0] at hd
        simp [List.isEmpty] at hd
      rw [if_neg hne]
      exact ⟨_, rfl⟩
  have hdtr : dev_to_rare_files devs reach = [] :=
    (num_rare_files_zero_iff devs reach).1 hzero
  have hmav : get_mavens thr devs reach = Except.ok [] := by
    unfold get_mavens
    rw [hdtr]
    simp [sort_and_filter]
  refine ⟨hmav, ?_, hmain, fun reach2 => by simp [get_jacks, sort_and_filter]⟩
  unfold find_last_sig_maven
  rw [hmav]
  simp [pareto_loop]

/-- Closed witness for the amended claim C7: two developers reaching the
same single file leave no rare file, and the maven operations return their
no-result values. -/
theorem degenerate_no_result_w :
    num_rare_files ["a", "b"] (fun _ => ["f1"]) = 0 ∧
    get_mavens (1 / 2) ["a", "b"] (fun _ => ["f1"]) = Except.ok [] ∧
    find_last_sig_maven (1 / 2) ["a", "b"] (fun _ => ["f1"]) = Except.ok none := by
  have h0 : num_rare_files ["a", "b"] (fun _ => ["f1"]) = 0 := by decide
  have h := degenerate_no_result (1 / 2) ["a", "b"] (fun _ => ["f1"]) h0
  exact ⟨h0, h.1, h.2.1⟩

theorem mem_jack_scores {numProj : Nat} {devs : List String}
    {reach : String → List String} {d : String} {v : ℚ} :
    (d, v) ∈ jack_scores numProj devs reach ↔
      d ∈ devs ∧ v = ((reach d).length : ℚ) / (numProj : ℚ) := by
  unfold jack_scores
  rw [List.mem_map]
  constructor
  · rintro ⟨x, hx, heq⟩
    injection heq with h1 h2
    subst h1
    exact ⟨hx, h2.symm⟩
  · rintro ⟨hd, hv⟩
    exact ⟨d, hd, by rw [hv]⟩

theorem jacks_keys_nodup (thr : ℚ) (numProj : Nat) (devs : List String)
    (reach : String → List String) (h : devs.Nodup) :
    ((jacks_list thr numProj devs reach).map Prod.fst).Nodup := by
  unfold jacks_list sort_and_filter
  have h1 : ((jack_scores numProj devs reach).map Prod.fst) = devs := by
    unfold jack_scores
    rw [List.map_map]
    exact List.map_id devs
  have hp := (List.mergeSort_perm (jack_scores numProj devs reach)
    (fun a b => decide (b.2 ≤ a.2))).map Prod.fst
  have hn : (((jack_scores numProj devs reach).mergeSort
      (fun a b => decide (b.2 ≤ a.2))).map Prod.fst).Nodup :=
    hp.nodup_iff.2 (by rw [h1]; exact h)
  exact List.Nodup.sublist (List.Sublist.map _ (List.filter_sublist _)) hn

theorem jacks_lookup_getD (thr : ℚ) (numProj : Nat) (devs : List String)
    (reach : String → List String) (h : devs.Nodup) (d : String) :
    ((jacks_list thr numProj devs reach).lookup d).getD 0 =
      if d ∈ devs ∧ thr ≤ ((reach d).length : ℚ) / (numProj : ℚ) then
        ((reach d).length : ℚ) / (numProj : ℚ)
      else 0 := by
  by_cases hs : d ∈ devs ∧ thr ≤ ((reach d).length : ℚ) / (numProj : ℚ)
  · rw [if_pos hs]
    have hmem : (d, ((reach d).length : ℚ) / (numProj : ℚ)) ∈
        jacks_list thr numProj devs reach := by
      unfold jacks_list
      rw [mem_sort_and_filter]
      exact ⟨mem_jack_scores.2 ⟨hs.1, rfl⟩, hs.2⟩
    rw [(lookup_eq_some_of_nodup (jacks_keys_nodup thr numProj devs reach h)).2 hmem]
    rfl
  · rw [if_neg hs]
    cases hl : (jacks_list thr numProj devs reach).lookup d with
    | none => rfl
    | some v =>
      exfalso
      have hm := (lookup_eq_some_of_nodup
        (jacks_keys_nodup thr numProj devs reach h)).1 hl
      unfold jacks_list at hm
      rw [mem_sort_and_filter] at hm
      have hv := mem_jack_scores.1 hm.1
      exact hs ⟨hv.1, hv.2 ▸ hm.2⟩

theorem get_jacks_ok (thr : ℚ) (numProj : Nat) (devs : List String)
    (reach : String → List String) (hok : devs = [] ∨ numProj ≠ 0) :
    get_jacks thr numProj devs reach =
      Except.ok (jacks_list thr numProj devs reach) := by
  by_cases hd : devs.isEmpty
  · have hnil : devs = [] := by
      cases devs with
      | nil => rfl
      | cons a t => simp [List.isEmpty] at hd
    subst hnil
    rfl
  · rcases hok with h | h
    · rw [h] at hd
      simp [List.isEmpty] at hd
    · unfold get_jacks
      rw [if_neg hd, if_neg h]

/-- Counterexample for claim C6: the input distribution of balanced_or_hero
does not assign 0 exactly to developers with no reachable files: developer
a reaches the file f1 and has the nonzero jack score 1/1000000, yet is
assigned 0 because that score is below the default threshold 5/1000000 and
the filtered jacks dictionary therefore drops it. -/
theorem knowledge_zero_below_threshold :
    balanced_knowledge ["a"] (jacks_list (5 / 1000000) 1000000 ["a"] reachW1) =
      [("a", 0)] ∧
    reachW1 "a" = ["f1"] ∧
    ((reachW1 "a").length : ℚ) / ((1000000 : Nat) : ℚ) ≠ 0 := by
  have hsc : ((reachW1 "a").length : ℚ) / ((1000000 : Nat) : ℚ) = 1 / 1000000 := by
    norm_num [reachW1]
  have hjl : jacks_list (5 / 1000000) 1000000 ["a"] reachW1 = [] := by
    unfold jacks_list jack_scores sort_and_filter
    simp only [List.map_cons, List.map_nil]
    rw [hsc, List.mergeSort_singleton]
    have hf : ¬ ((5 : ℚ) / 1000000 ≤ (1 : ℚ) / 1000000) := by norm_num
    simp only [List.filter_cons, List.filter_nil, decide_eq_true_eq, if_neg hf]
  rw [hjl]
  refine ⟨by simp [balanced_knowledge, List.lookup], rfl, by rw [hsc]; norm_num⟩

/-- Claim C6 (amended): the input distribution of balanced_or_hero assigns
to each current developer its jack score when that score passes the
score_threshold filter, and 0 otherwise (in particular 0 to every
developer with no reachable files); with fewer than 3 developers the
operation returns no label, and otherwise it returns balanced exactly when
any one of the three distribution tests (uniformity, normality, skewness
below 1) accepts, and hero otherwise. -/
theorem balanced_or_hero_spec (thr : ℚ) (numProj : Nat) (devs : List String)
    (reach : String → List String) (u no sk : List ℚ → Bool)
    (hdevs : devs.Nodup) (hok : devs = [] ∨ numProj ≠ 0) :
    balanced_knowledge devs (jacks_list thr numProj devs reach) =
      devs.map (fun d => (d,
        if thr ≤ ((reach d).length : ℚ) / (numProj : ℚ) then
          ((reach d).length : ℚ) / (numProj : ℚ)
        else 0)) ∧
    (devs.length < 3 →
      balanced_or_hero thr numProj devs reach u no sk = Except.ok none) ∧
    (3 ≤ devs.length →
      balanced_or_hero thr numProj devs reach u no sk =
        Except.ok (some
          (if u ((balanced_knowledge devs
                (jacks_list thr numProj devs reach)).map (fun p => p.2)) ||
              no ((balanced_knowledge devs
                (jacks_list thr numProj devs reach)).map (fun p => p.2)) ||
              sk ((balanced_knowledge devs
                (jacks_list thr numProj devs reach)).map (fun p => p.2)) then
            sBalanced
          else sHero))) := by
  have hbk : balanced_knowledge devs (jacks_list thr numProj devs reach) =
      devs.map (fun d => (d,
        if thr ≤ ((reach d).length : ℚ) / (numProj : ℚ) then
          ((reach d).length : ℚ) / (numProj : ℚ)
        else 0)) := by
    unfold balanced_knowledge
    apply List.map_congr_left
    intro d hd
    rw [jacks_lookup_getD thr numProj devs reach hdevs d]
    by_cases hs : thr ≤ ((reach d).length : ℚ) / (numProj : ℚ)
    · rw [if_pos ⟨hd, hs⟩, if_pos hs]
    · rw [if_neg (fun hc => hs hc.2), if_neg hs]
  have hlen : (balanced_knowledge devs
      (jacks_list thr numProj devs reach)).length = devs.length := by
    unfold balanced_knowledge
    exact List.length_map _ _
  refine ⟨hbk, ?_, ?_⟩
  · intro h3
    unfold balanced_or_hero
    rw [get_jacks_ok thr numProj devs reach hok]
    simp only
    rw [if_pos (hlen ▸ h3)]
  · intro h3
    unfold balanced_or_hero
    rw [get_jacks_ok thr numProj devs reach hok]
    simp only
    rw [if_neg (by rw [hlen]; omega)]
    by_cases hc : (u ((balanced_knowledge devs
          (jacks_list thr numProj devs reach)).map (fun p => p.2)) ||
        no ((balanced_knowledge devs
          (jacks_list thr numProj devs reach)).map (fun p => p.2)) ||
        sk ((balanced_knowledge devs
          (jacks_list thr numProj devs reach)).map (fun p => p.2))) = true
    · rw [if_pos hc, if_pos hc]
    · rw [if_neg hc, if_neg hc]

/-- Closed witness for the amended claim C6: with two developers the
classifier returns no label. -/
theorem balanced_or_hero_spec_w :
    balanced_or_hero (1 / 2) 5 ["a", "b"] reachW1
      (fun _ => true) (fun _ => true) (fun _ => true) = Except.ok none :=
  (balanced_or_hero_spec (1 / 2) 5 ["a", "b"] reachW1
    (fun _ => true) (fun _ => true) (fun _ => true)
    (by decide) (Or.inr (by decide))).2.1 (by decide)

theorem pairwise_rel_of_mem {α : Type} {R : α → α → Prop} {l : List α}
    (h : l.Pairwise R) {a b : α} (ha : a ∈ l) (hb : b ∈ l) (hne : a ≠ b) :
    R a b ∨ R b a := by
  induction l with
  | nil => cases ha
  | cons x t ih =>
    rcases List.pairwise_cons.1 h with ⟨hx, ht⟩
    rcases List.mem_cons.1 ha with ha1 | ha2
    · rcases List.mem_cons.1 hb with hb1 | hb2
      · exact absurd (ha1.trans hb1.symm) hne
      · exact Or.inl (ha1 ▸ hx b hb2)
    · rcases List.mem_cons.1 hb with hb1 | hb2
      · exact Or.inr (hb1 ▸ hx a ha2)
      · exact ih ht ha2 hb2

theorem find_replacement_none_empty (thr : ℚ) (devs : List String)
    (reach : String → List String) (d : String)
    (h1 : (reach d).dedup = []) :
    find_replacement thr devs reach d = none := by
  simp only [find_replacement]
  rw [if_pos (by rw [h1]; rfl)]

theorem find_replacement_none_few (thr : ℚ) (devs : List String)
    (reach : String → List String) (d : String)
    (h2 : (devs.erase d).length < 5) :
    find_replacement thr devs reach d = none := by
  simp only [find_replacement]
  by_cases hemp : ((reach d).dedup).isEmpty = true
  · rw [if_pos hemp]
  · rw [if_neg hemp, if_pos h2]

theorem find_replacement_some (thr : ℚ) (devs : List String)
    (reach : String → List String) (d : String)
    (h1 : (reach d).dedup ≠ []) (h2 : ¬ (devs.erase d).length < 5) :
    find_replacement thr devs reach d =
      some (sort_and_filter thr ((devs.erase d).map (fun o =>
        (o, (((reach d).dedup.filter (fun f => f ∈ reach o)).length : ℚ) /
          ((reach d).dedup.length : ℚ))))) := by
  simp only [find_replacement]
  rw [if_neg (by simpa [List.isEmpty_iff] using h1), if_neg h2]

/-- Counterexample for claim C5: with the developer d reaching only f1 and
five other developers all reaching f1 as well, every overlap ratio is 1,
so the returned dictionary holds equal adjacent scores and is not sorted
strictly descending. -/
theorem find_replacement_ties_counterexample :
    (∃ out, find_replacement (1 / 2) ["d", "b", "c", "e", "g", "h"]
        (fun _ => ["f1"]) "d" = some out ∧
      ("b", (1 : ℚ)) ∈ out ∧ ("c", (1 : ℚ)) ∈ out) ∧
    ¬ (∀ out, find_replacement (1 / 2) ["d", "b", "c", "e", "g", "h"]
        (fun _ => ["f1"]) "d" = some out →
        out.Pairwise (fun x y => y.2 < x.2)) := by
  have hres := find_replacement_some (1 / 2) ["d", "b", "c", "e", "g", "h"]
    (fun _ => ["f1"]) "d" (by decide) (by decide)
  have hratio : ∀ o : String,
      (((((["f1"] : List String)).dedup.filter
        (fun f => f ∈ (fun _ => (["f1"] : List String)) o)).length : ℚ)) /
        (((["f1"] : List String).dedup.length : ℚ)) = 1 := by
    intro o
    have hd : ((["f1"] : List String)).dedup = ["f1"] := by decide
    rw [hd]
    have hfl : ((["f1"] : List String).filter
        (fun f => f ∈ (fun _ => (["f1"] : List String)) o)) = ["f1"] := by
      simp [List.filter_cons]
    rw [hfl]
    norm_num
  have hmem : ∀ o : String,
      o ∈ (["d", "b", "c", "e", "g", "h"] : List String).erase "d" →
      (o, (1 : ℚ)) ∈ sort_and_filter (1 / 2)
        ((((["d", "b", "c", "e", "g", "h"] : List String)).erase "d").map
          (fun o2 => (o2, ((((["f1"] : List String)).dedup.filter
            (fun f => f ∈ (fun _ => (["f1"] : List String)) o2)).length : ℚ) /
            (((["f1"] : List String).dedup.length : ℚ))))) := by
    intro o ho
    refine mem_sort_and_filter.2 ⟨?_, by norm_num⟩
    refine List.mem_map.2 ⟨o, ho, ?_⟩
    rw [hratio o]
  constructor
  · refine ⟨_, hres, hmem "b" (by decide), hmem "c" (by decide)⟩
  · intro hall
    have hp := hall _ hres
    have h2 := pairwise_rel_of_mem hp (hmem "b" (by decide)) (hmem "c" (by decide))
      (by intro h; injection h with h1 h2; exact absurd h1 (by decide))
    rcases h2 with h2 | h2 <;>
      exact absurd h2 (by norm_num)

/-- Claim C5 (amended): find_replacement returns no result when the
departing developer has no reachable files or when fewer than 5 other
developers exist; otherwise it returns the dictionary that maps each other
developer passing the score_threshold filter to its overlap ratio, sorted
by ratio in descending (non-increasing, not strictly descending) order. -/
theorem find_replacement_spec (thr : ℚ) (devs : List String)
    (reach : String → List String) (d : String) (hd : d ∈ devs) :
    ((reach d).dedup = [] → find_replacement thr devs reach d = none) ∧
    ((devs.erase d).length < 5 → find_replacement thr devs reach d = none) ∧
    ((reach d).dedup ≠ [] → ¬ (devs.erase d).length < 5 →
      ∃ out, find_replacement thr devs reach d = some out ∧
        out.Pairwise (fun x y => y.2 ≤ x.2) ∧
        (∀ p ∈ out, thr ≤ p.2 ∧ p.1 ∈ devs.erase d) ∧
        (∀ o ∈ devs.erase d,
          thr ≤ (((reach d).dedup.filter (fun f => f ∈ reach o)).length : ℚ) /
            ((reach d).dedup.length : ℚ) →
          (o, (((reach d).dedup.filter (fun f => f ∈ reach o)).length : ℚ) /
            ((reach d).dedup.length : ℚ)) ∈ out)) := by
  refine ⟨find_replacement_none_empty thr devs reach d,
    find_replacement_none_few thr devs reach d, ?_⟩
  intro h1 h2
  refine ⟨_, find_replacement_some thr devs reach d h1 h2, ?_, ?_, ?_⟩
  · exact pairwise_sort_and_filter _ _
  · intro p hp
    rcases mem_sort_and_filter.1 hp with ⟨hp1, hp2⟩
    rcases List.mem_map.1 hp1 with ⟨o, ho, heq⟩
    exact ⟨hp2, by rw [← heq]; exact ho⟩
  · intro o ho hthr
    exact mem_sort_and_filter.2 ⟨List.mem_map.2 ⟨o, ho, rfl⟩, hthr⟩

/-- Closed witness for the amended claim C5: with a single other developer
the recommendation is refused. -/
theorem find_replacement_spec_w :
    find_replacement (1 / 2) ["d", "b"] (fun _ => ["f1"]) "d" = none :=
  (find_replacement_spec (1 / 2) ["d", "b"] (fun _ => ["f1"]) "d"
    (by decide)).2.1 (by decide)

theorem mem_unionInto (c l : List String) (x : String) :
    x ∈ unionInto c l ↔ x ∈ c ∨ x ∈ l := by
  induction l generalizing c with
  | nil => simp [unionInto]
  | cons a t ih =>
    have hstep : unionInto c (a :: t) =
        unionInto (if a ∈ c then c else c ++ [a]) t := rfl
    rw [hstep, ih]
    by_cases ha : a ∈ c
    · rw [if_pos ha]
      simp only [List.mem_cons]
      constructor
      · rintro (h | h)
        · exact Or.inl h
        · exact Or.inr (Or.inr h)
      · rintro (h | h | h)
        · exact Or.inl h
        · exact Or.inl (h ▸ ha)
        · exact Or.inr h
    · rw [if_neg ha]
      simp only [List.mem_append, List.mem_cons, List.not_mem_nil, or_false]
      tauto

theorem nodup_unionInto (c l : List String) (h : c.Nodup) :
    (unionInto c l).Nodup := by
  induction l generalizing c with
  | nil => exact h
  | cons a t ih =>
    have hstep : unionInto c (a :: t) =
        unionInto (if a ∈ c then c else c ++ [a]) t := rfl
    rw [hstep]
    by_cases ha : a ∈ c
    · rw [if_pos ha]; exact ih c h
    · rw [if_neg ha]; exact ih _ (by simp [List.nodup_append, h, ha])

theorem toFinset_unionInto (c l : List String) :
    (unionInto c l).toFinset = c.toFinset ∪ l.toFinset := by
  ext x
  simp [List.mem_toFinset, mem_unionInto, Finset.mem_union]

theorem pareto_loop_some_spec (filesOf : String → List String) (total : ℚ)
    (l : List (String × ℚ)) :
    ∀ (covered : List String), covered.Nodup → ∀ j,
      pareto_loop filesOf total covered l = some j →
      ∃ k, ∃ (hk : k < l.length), (l.get ⟨k, hk⟩).1 = j ∧
        (8 : ℚ) / 10 ≤ (((covered.toFinset ∪
          ((l.take (k + 1)).flatMap (fun p => filesOf p.1)).toFinset).card : ℚ) /
            total) ∧
        ∀ m, 1 ≤ m → m ≤ k →
          (((covered.toFinset ∪
            ((l.take m).flatMap (fun p => filesOf p.1)).toFinset).card : ℚ) /
              total) < 8 / 10 := by
  induction l with
  | nil =>
    intro covered hnd j h
    simp [pareto_loop] at h
  | cons hd tl ih =>
    intro covered hnd j h
    obtain ⟨j0, s0⟩ := hd
    simp only [pareto_loop] at h
    have hpre : ∀ m : Nat, covered.toFinset ∪
        ((((j0, s0) :: tl).take (m + 1)).flatMap (fun p => filesOf p.1)).toFinset =
        (unionInto covered (filesOf j0)).toFinset ∪
          ((tl.take m).flatMap (fun p => filesOf p.1)).toFinset := by
      intro m
      rw [List.take_succ_cons, List.flatMap_cons, List.toFinset_append,
        toFinset_unionInto, Finset.union_assoc]
    have hlen : ((unionInto covered (filesOf j0)).length : ℚ) =
        ((unionInto covered (filesOf j0)).toFinset.card : ℚ) := by
      rw [List.toFinset_card_of_nodup (nodup_unionInto _ _ hnd)]
    by_cases hchk : (8 : ℚ) / 10 ≤
        ((unionInto covered (filesOf j0)).length : ℚ) / total
    · rw [if_pos hchk] at h
      have hj : j0 = j := Option.some.inj h
      refine ⟨0, by simp, by simpa using hj, ?_, ?_⟩
      · rw [hpre 0]
        have h0 : ((tl.take 0).flatMap (fun p => filesOf p.1)).toFinset = ∅ := by
          simp
        rw [h0, Finset.union_empty]
        rw [hlen] at hchk
        exact hchk
      · intro m hm1 hm2
        omega
    · rw [if_neg hchk] at h
      obtain ⟨k, hk, hget, hge, hlt⟩ := ih (unionInto covered (filesOf j0))
        (nodup_unionInto _ _ hnd) j h
      refine ⟨k + 1, by simpa using Nat.succ_lt_succ hk, by simpa using hget,
        ?_, ?_⟩
      · rw [hpre (k + 1)]
        exact hge
      · intro m hm1 hm2
        cases m with
        | zero => omega
        | succ mm =>
          rw [hpre mm]
          by_cases hmm : mm = 0
          · subst hmm
            have h0 : ((tl.take 0).flatMap (fun p => filesOf p.1)).toFinset = ∅ := by
              simp
            rw [h0, Finset.union_empty, ← hlen]
            exact not_le.1 hchk
          · exact hlt mm (Nat.one_le_iff_ne_zero.2 hmm) (by omega)

/-- Claim C8: find_last_sig_jack returns the last element of the first
prefix of the descending jack list whose cumulative distinct reachable-file
coverage reaches 80 percent of num_reachable_files: when it returns a
developer, the prefix ending there covers at least 80 percent while every
shorter prefix (in particular the prefix without that developer) covers
strictly less; when no prefix ever reaches 80 percent it returns no
result. -/
theorem last_sig_jack_first_crossing (thr : ℚ) (numProj : Nat)
    (devs : List String) (reach : String → List String)
    (hN : 0 < num_reachable_files devs reach) :
    (∀ j, find_last_sig_jack thr numProj devs reach = some j →
      ∃ k, ∃ (hk : k < (jacks_list thr numProj devs reach).length),
        ((jacks_list thr numProj devs reach).get ⟨k, hk⟩).1 = j ∧
        (8 : ℚ) / 10 ≤
          (covered_card reach (jacks_list thr numProj devs reach) (k + 1) : ℚ) /
            (num_reachable_files devs reach : ℚ) ∧
        ∀ m ≤ k,
          (covered_card reach (jacks_list thr numProj devs reach) m : ℚ) /
            (num_reachable_files devs reach : ℚ) < 8 / 10) ∧
    ((∀ m ≤ (jacks_list thr numProj devs reach).length,
        (covered_card reach (jacks_list thr numProj devs reach) m : ℚ) /
          (num_reachable_files devs reach : ℚ) < 8 / 10) →
      find_last_sig_jack thr numProj devs reach = none) := by
  have hempty : (([] : List String)).toFinset = ∅ := rfl
  constructor
  · intro j hj
    unfold find_last_sig_jack at hj
    obtain ⟨k, hk, hget, hge, hlt⟩ :=
      pareto_loop_some_spec reach _ _ [] List.nodup_nil j hj
    refine ⟨k, hk, hget, ?_, ?_⟩
    · unfold covered_card
      rw [hempty, Finset.empty_union] at hge
      exact hge
    · intro m hm
      by_cases hm0 : m = 0
      · subst hm0
        unfold covered_card
        simp only [List.take_zero, List.flatMap_nil, List.toFinset_nil,
          Finset.card_empty, Nat.cast_zero, zero_div]
        norm_num
      · have := hlt m (Nat.one_le_iff_ne_zero.2 hm0) hm
        rw [hempty, Finset.empty_union] at this
        exact this
  · intro hall
    cases hres : find_last_sig_jack thr numProj devs reach with
    | none => rfl
    | some j =>
      exfalso
      unfold find_last_sig_jack at hres
      obtain ⟨k, hk, hget, hge, hlt⟩ :=
        pareto_loop_some_spec reach _ _ [] List.nodup_nil j hres
      have hcontra := hall (k + 1) (by omega)
      rw [hempty, Finset.empty_union] at hge
      have hge2 : (8 : ℚ) / 10 ≤
          (covered_card reach (jacks_list thr numProj devs reach) (k + 1) : ℚ) /
            (num_reachable_files devs reach : ℚ) := hge
      exact absurd hcontra (not_lt.2 hge2)

/-- Closed witness for claim C8: one developer reaching one file, with the
threshold set above every score so that the jack list is empty and no
prefix reaches 80 percent, yields no significant jack. -/
theorem last_sig_jack_first_crossing_w :
    0 < num_reachable_files ["a"] reachW1 ∧
    find_last_sig_jack (2 : ℚ) 1 ["a"] reachW1 = none := by
  have hN : 0 < num_reachable_files ["a"] reachW1 := by decide
  have hjl : jacks_list (2 : ℚ) 1 ["a"] reachW1 = [] := by
    unfold jacks_list jack_scores sort_and_filter
    simp only [List.map_cons, List.map_nil]
    have hsc : ((reachW1 "a").length : ℚ) / ((1 : Nat) : ℚ) = 1 := by
      norm_num [reachW1]
    rw [hsc, List.mergeSort_singleton]
    have hf : ¬ ((2 : ℚ) ≤ 1) := by norm_num
    simp only [List.filter_cons, List.filter_nil, decide_eq_true_eq, if_neg hf]
  refine ⟨hN, (last_sig_jack_first_crossing (2 : ℚ) 1 ["a"] reachW1 hN).2 ?_⟩
  intro m hm
  rw [hjl] at hm
  have hm0 : m = 0 := Nat.le_zero.1 hm
  subst hm0
  unfold covered_card
  simp only [List.take_zero, List.flatMap_nil, List.toFinset_nil,
    Finset.card_empty, Nat.cast_zero, zero_div]
  norm_num

theorem add_change_sets_tr_aux (limit : Nat) (css : List ChangeSet) :
    ∀ (g : Agraph) (acc : List GEvent),
      css.foldl (fun p cs => (add_change_set limit p.1 cs, p.2 ++ cs_trace limit cs))
        (g, acc) =
      (add_change_sets limit g css, acc ++ css.flatMap (cs_trace limit)) := by
  induction css with
  | nil =>
    intro g acc
    simp [add_change_sets]
  | cons cs t ih =>
    intro g acc
    simp only [List.foldl_cons, List.flatMap_cons]
    rw [ih]
    simp [add_change_sets, List.foldl_cons, List.append_assoc]

theorem forward_tr_eq (limit : Nat) (g : Agraph) (removed added : List ChangeSet) :
    forward_graph_one_day_tr limit g removed added =
      (forward_graph_one_day limit g removed added,
       GEvent.evict_cs (removed.map (fun cs => cs.commit_hash)) ::
         added.flatMap (cs_trace limit)) := by
  have h := add_change_sets_tr_aux limit added (remove_change_sets g removed) []
  simp only [forward_graph_one_day_tr, add_change_sets_tr, forward_graph_one_day]
  rw [h]
  simp

theorem cs_trace_not_evict (limit : Nat) (cs : ChangeSet) :
    ∀ ev ∈ cs_trace limit cs, isEvict ev = false := by
  intro ev hev
  unfold cs_trace at hev
  rcases List.mem_cons.1 hev with h | h
  · rw [h]; rfl
  · rcases List.mem_cons.1 h with h2 | h2
    · rw [h2]; rfl
    · by_cases hskip : limit < (files_add_modify cs).length
      · rw [if_pos hskip] at h2
        cases h2
      · rw [if_neg hskip] at h2
        simp only [List.mem_singleton] at h2
        rw [h2]; rfl

theorem evict_first_order (e0 : GEvent) (tail : List GEvent)
    (htail : ∀ ev ∈ tail, isEvict ev = false)
    (hinc0 : isIncomingChange e0 = false) :
    ∀ i, (hi : i < (e0 :: tail).length) → ∀ j, (hj : j < (e0 :: tail).length) →
      isEvict ((e0 :: tail).get ⟨i, hi⟩) = true →
      isIncomingChange ((e0 :: tail).get ⟨j, hj⟩) = true → i < j := by
  intro i hi j hj hev hinc
  cases i with
  | zero =>
    cases j with
    | zero =>
      have hg0 : (e0 :: tail).get ⟨0, hj⟩ = e0 := rfl
      rw [hg0, hinc0] at hinc
      cases hinc
    | succ j2 => exact Nat.succ_pos j2
  | succ i2 =>
    exfalso
    have hi2 : i2 < tail.length := by
      simpa using Nat.lt_of_succ_lt_succ hi
    have hgc : (e0 :: tail).get ⟨i2 + 1, hi⟩ = tail.get ⟨i2, hi2⟩ := rfl
    rw [hgc] at hev
    rw [htail _ (tail.get_mem _ _)] at hev
    cases hev

/-- Counterexample for claim C3: on a window advance with one leaving
change set (c1) and one incoming change set (c2, carrying a rename of A to
B), the execution trace evicts the leaving change set first, so the
incoming rename does not precede the removal of the change sets leaving
the window. -/
theorem forward_order_counterexample :
    ¬ incoming_before_eviction
        (forward_graph_one_day_tr 50 ⟨[], []⟩ [csO] [csI]).2 ∧
    files_rename csI = [("A", "B")] := by
  constructor
  · intro hall
    have htr : (forward_graph_one_day_tr 50 ⟨[], []⟩ [csO] [csI]).2 =
        [GEvent.evict_cs ["c1"], GEvent.rename_files [("A", "B")],
         GEvent.delete_files [], GEvent.insert_cs "c2"] := by
      rw [forward_tr_eq]
      rfl
    have h2 : incoming_before_eviction
        [GEvent.evict_cs ["c1"], GEvent.rename_files [("A", "B")],
         GEvent.delete_files [], GEvent.insert_cs "c2"] := htr ▸ hall
    exact absurd (h2 1 (by decide) 0 (by decide) rfl rfl) (by decide)
  · rfl

/-- Claim C3 (amended): on every window advance the change sets leaving
the window are evicted first; afterwards each incoming change set is
applied in order, its renames first, then its deletions, then (unless it
is skipped as a large change set) its node and edge insertions — so
renames and deletions precede their own change set's additions, but they
follow, not precede, the removal of the change sets leaving the window. -/
theorem forward_event_order (limit : Nat) (g : Agraph)
    (removed added : List ChangeSet) :
    (forward_graph_one_day_tr limit g removed added).1 =
      forward_graph_one_day limit g removed added ∧
    (forward_graph_one_day_tr limit g removed added).2 =
      GEvent.evict_cs (removed.map (fun cs => cs.commit_hash)) ::
        added.flatMap (cs_trace limit) ∧
    (∀ cs : ChangeSet, ∃ t, cs_trace limit cs =
      GEvent.rename_files (files_rename cs) ::
        GEvent.delete_files (files_delete cs) :: t) ∧
    (∀ tr : List GEvent, (forward_graph_one_day_tr limit g removed added).2 = tr →
      ∀ i, (hi : i < tr.length) → ∀ j, (hj : j < tr.length) →
      isEvict (tr.get ⟨i, hi⟩) = true →
      isIncomingChange (tr.get ⟨j, hj⟩) = true → i < j) := by
  have htr : (forward_graph_one_day_tr limit g removed added).2 =
      GEvent.evict_cs (removed.map (fun cs => cs.commit_hash)) ::
        added.flatMap (cs_trace limit) := by
    rw [forward_tr_eq]
  refine ⟨by rw [forward_tr_eq], htr, fun cs => ⟨_, rfl⟩, ?_⟩
  intro tr htr2
  have heq : tr = GEvent.evict_cs (removed.map (fun cs => cs.commit_hash)) ::
      added.flatMap (cs_trace limit) := by
    rw [← htr2, htr]
  subst heq
  refine evict_first_order _ _ ?_ rfl
  intro ev hev2
  rcases List.mem_flatMap.1 hev2 with ⟨cs, hcs, hmem⟩
  exact cs_trace_not_evict limit cs ev hmem

/-- Closed witness for the amended claim C3: the concrete advance from the
counterexample has the eviction event at the head of the trace, before the
incoming rename event. -/
theorem forward_event_order_w :
    (forward_graph_one_day_tr 50 ⟨[], []⟩ [csO] [csI]).2 =
      GEvent.evict_cs ["c1"] :: [csI].flatMap (cs_trace 50) ∧ (0 : Nat) < 1 := by
  have h := forward_event_order 50 ⟨[], []⟩ [csO] [csI]
  constructor
  · rw [h.2.1]
    rfl
  · exact h.2.2.2
      [GEvent.evict_cs ["c1"], GEvent.rename_files [("A", "B")],
       GEvent.delete_files [], GEvent.insert_cs "c2"]
      (by rw [forward_tr_eq]; rfl) 0 (by decide) 1 (by decide)
      (by decide) (by decide)

theorem sameEnds_iff {e : Gedge} {u v : String} :
    sameEnds e u v = true ↔ (e.src = u ∧ e.dst = v) ∨ (e.src = v ∧ e.dst = u) := by
  simp [sameEnds, Bool.or_eq_true, Bool.and_eq_true, beq_iff_eq]

theorem addNode_edges (g : Agraph) (n k : String) :
    (g.addNode n k).edges = g.edges := by
  unfold Agraph.addNode
  split <;> rfl

theorem addNode_incident {g : Agraph} {m : String} (n k : String)
    (h : g.Incident m) : (g.addNode n k).Incident m := by
  unfold Agraph.Incident at *
  rw [addNode_edges]
  exact h

theorem addEdge_edges (g : Agraph) (u v : String) (d : Option Int) (k : String) :
    (g.addEdge u v d k).edges =
      if g.edges.any (fun e => sameEnds e u v) then
        g.edges.map (fun e =>
          if sameEnds e u v then { e with date := d, kind := k } else e)
      else g.edges ++ [⟨u, v, d, k⟩] := rfl

theorem addEdge_incident {g : Agraph} {m : String} (u v : String)
    (d : Option Int) (k : String) (h : g.Incident m) :
    (g.addEdge u v d k).Incident m := by
  obtain ⟨e, he, hinc⟩ := h
  unfold Agraph.Incident
  rw [addEdge_edges]
  by_cases hc : g.edges.any (fun e => sameEnds e u v)
  · rw [if_pos hc]
    refine ⟨if sameEnds e u v then { e with date := d, kind := k } else e,
      List.mem_map_of_mem _ he, ?_⟩
    by_cases hse : sameEnds e u v = true
    · rw [if_pos hse]; exact hinc
    · rw [if_neg hse]; exact hinc
  · rw [if_neg hc]
    exact ⟨e, List.mem_append_left _ he, hinc⟩

theorem addEdge_hasEdge_self (g : Agraph) (u v : String) (d : Option Int)
    (k : String) : (g.addEdge u v d k).hasEdgeAttr u v d k := by
  unfold Agraph.hasEdgeAttr
  rw [addEdge_edges]
  by_cases hc : g.edges.any (fun e => sameEnds e u v)
  · rw [if_pos hc]
    obtain ⟨e, he, hse⟩ := List.any_eq_true.1 hc
    exact ⟨{ e with date := d, kind := k },
      List.mem_map.2 ⟨e, he, by rw [if_pos hse]⟩, hse, rfl, rfl⟩
  · rw [if_neg hc]
    exact ⟨⟨u, v, d, k⟩, List.mem_append_right _ (List.mem_singleton.2 rfl),
      by simp [sameEnds], rfl, rfl⟩

theorem addEdge_hasEdge_same (g : Agraph) {u v : String} {d : Option Int}
    {k : String} (h : g.hasEdgeAttr u v d k) (u2 v2 : String) :
    (g.addEdge u2 v2 d k).hasEdgeAttr u v d k := by
  obtain ⟨e, he, hse, hd, hk⟩ := h
  unfold Agraph.hasEdgeAttr
  rw [addEdge_edges]
  by_cases hc : g.edges.any (fun e => sameEnds e u2 v2)
  · rw [if_pos hc]
    by_cases hse2 : sameEnds e u2 v2 = true
    · exact ⟨{ e with date := d, kind := k },
        List.mem_map.2 ⟨e, he, by rw [if_pos hse2]⟩, hse, rfl, rfl⟩
    · exact ⟨e, List.mem_map.2 ⟨e, he, by rw [if_neg hse2]⟩, hse, hd, hk⟩
  · rw [if_neg hc]
    exact ⟨e, List.mem_append_left _ he, hse, hd, hk⟩

theorem addEdge_hasEdge_other (g : Agraph) {u v : String} {d : Option Int}
    {k : String} (h : g.hasEdgeAttr u v d k) {u2 v2 : String}
    (d2 : Option Int) (k2 : String)
    (hdisj : ¬ ((u2 = u ∧ v2 = v) ∨ (u2 = v ∧ v2 = u))) :
    (g.addEdge u2 v2 d2 k2).hasEdgeAttr u v d k := by
  obtain ⟨e, he, hse, hd, hk⟩ := h
  have hse2 : ¬ sameEnds e u2 v2 = true := by
    intro hx
    rcases sameEnds_iff.1 hse with ⟨h1, h2⟩ | ⟨h1, h2⟩ <;>
      rcases sameEnds_iff.1 hx with ⟨h3, h4⟩ | ⟨h3, h4⟩
    · exact hdisj (Or.inl ⟨h1 ▸ h3.symm, h2 ▸ h4.symm⟩)
    · exact hdisj (Or.inr ⟨h2 ▸ h4.symm, h1 ▸ h3.symm⟩)
    · exact hdisj (Or.inr ⟨h1 ▸ h3.symm, h2 ▸ h4.symm⟩)
    · exact hdisj (Or.inl ⟨h2 ▸ h4.symm, h1 ▸ h3.symm⟩)
  unfold Agraph.hasEdgeAttr
  rw [addEdge_edges]
  by_cases hc : g.edges.any (fun e => sameEnds e u2 v2)
  · rw [if_pos hc]
    exact ⟨e, List.mem_map.2 ⟨e, he, by rw [if_neg hse2]⟩, hse, hd, hk⟩
  · rw [if_neg hc]
    exact ⟨e, List.mem_append_left _ he, hse, hd, hk⟩

theorem hasEdgeAttr_incident {g : Agraph} {u v : String} {d : Option Int}
    {k : String} (h : g.hasEdgeAttr u v d k) : g.Incident u ∧ g.Incident v := by
  obtain ⟨e, he, hse, hd2, hk2⟩ := h
  rcases sameEnds_iff.1 hse with ⟨h1, h2⟩ | ⟨h1, h2⟩
  · exact ⟨⟨e, he, Or.inl h1⟩, ⟨e, he, Or.inr h2⟩⟩
  · exact ⟨⟨e, he, Or.inr h2⟩, ⟨e, he, Or.inl h1⟩⟩

theorem find?_key_map_update (l : List (String × String)) (n k : String) :
    (l.map (fun p => if p.1 = n then (n, k) else p)).find? (fun p => p.1 == n) =
      if n ∈ l.map Prod.fst then some (n, k) else none := by
  induction l with
  | nil => simp
  | cons a t ih =>
    by_cases ha : a.1 = n
    · simp only [List.map_cons, if_pos ha]
      rw [List.find?_cons]
      simp only [beq_self_eq_true]
      rw [if_pos (by simp only [List.map_cons, List.mem_cons]; exact Or.inl ha.symm)]
    · simp only [List.map_cons, if_neg ha]
      rw [List.find?_cons]
      have hb : (a.1 == n) = false := beq_eq_false_iff_ne.2 ha
      simp only [hb]
      rw [ih]
      by_cases hm : n ∈ t.map Prod.fst
      · rw [if_pos hm, if_pos (by simp [List.mem_cons, hm])]
      · rw [if_neg hm, if_neg (by
          simp only [List.mem_cons]
          rintro (h | h)
          · exact ha h.symm
          · exact hm h)]

theorem find?_key_map_update_ne (l : List (String × String)) (n k m : String)
    (hm : m ≠ n) :
    (l.map (fun p => if p.1 = n then (n, k) else p)).find? (fun p => p.1 == m) =
      l.find? (fun p => p.1 == m) := by
  induction l with
  | nil => simp
  | cons a t ih =>
    by_cases ha : a.1 = n
    · simp only [List.map_cons, if_pos ha]
      rw [List.find?_cons, List.find?_cons]
      have h1 : (n == m) = false := beq_eq_false_iff_ne.2 (fun h => hm h.symm)
      have h2 : (a.1 == m) = false := beq_eq_false_iff_ne.2 (by rw [ha]; exact fun h => hm h.symm)
      simp only [h1, h2]
      exact ih
    · simp only [List.map_cons, if_neg ha]
      rw [List.find?_cons, List.find?_cons]
      cases hb : (a.1 == m) with
      | true => rfl
      | false => exact ih

theorem mem_names_find?_isSome (g : Agraph) (m : String) :
    m ∈ g.names ↔ (g.nodes.find? (fun p => p.1 == m)).isSome := by
  unfold Agraph.names
  rw [List.find?_isSome]
  constructor
  · intro hm
    obtain ⟨p, hp, hfst⟩ := List.mem_map.1 hm
    exact ⟨p, hp, beq_iff_eq.2 hfst⟩
  · rintro ⟨p, hp, hb⟩
    exact List.mem_map.2 ⟨p, hp, beq_iff_eq.1 hb⟩

theorem find?_key_of_not_mem (l : List (String × String)) (m : String)
    (h : m ∉ l.map Prod.fst) : l.find? (fun p => p.1 == m) = none := by
  rw [List.find?_eq_none]
  intro p hp hbeq
  exact h (List.mem_map.2 ⟨p, hp, beq_iff_eq.1 hbeq⟩)

theorem addNode_kindOf_self (g : Agraph) (n k : String) :
    (g.addNode n k).kindOf n = some k := by
  unfold Agraph.addNode Agraph.kindOf
  by_cases hc : g.names.contains n
  · rw [if_pos hc]
    simp only
    rw [find?_key_map_update]
    rw [if_pos (by unfold Agraph.names at hc; exact (List.elem_iff).1 hc)]
    rfl
  · rw [if_neg hc]
    simp only
    rw [List.find?_append]
    rw [find?_key_of_not_mem g.nodes n
      (by intro hm; exact hc ((List.elem_iff).2 hm))]
    simp [List.find?_cons]

theorem addNode_kindOf_ne (g : Agraph) (n k m : String) (hm : m ≠ n) :
    (g.addNode n k).kindOf m = g.kindOf m := by
  unfold Agraph.addNode Agraph.kindOf
  by_cases hc : g.names.contains n
  · rw [if_pos hc]
    simp only
    rw [find?_key_map_update_ne g.nodes n k m hm]
  · rw [if_neg hc]
    simp only
    rw [List.find?_append]
    cases hf : g.nodes.find? (fun p => p.1 == m) with
    | some p => rfl
    | none =>
      simp only [Option.none_or]
      rw [List.find?_cons]
      have hb : (n == m) = false := beq_eq_false_iff_ne.2 (fun h => hm h.symm)
      simp [hb]

theorem find?_append_of_isSome {l1 l2 : List (String × String)}
    {p : String × String → Bool} (h : (l1.find? p).isSome) :
    (l1 ++ l2).find? p = l1.find? p := by
  rw [List.find?_append]
  cases hf : l1.find? p with
  | some q => rfl
  | none => rw [hf] at h; cases h

theorem addEdge_nodes (g : Agraph) (u v : String) (d : Option Int) (k : String) :
    (g.addEdge u v d k).nodes =
      (let ns1 := if g.names.contains u then g.nodes else g.nodes ++ [(u, "")]
       if (ns1.map (fun p => p.1)).contains v then ns1 else ns1 ++ [(v, "")]) := rfl

theorem addEdge_kindOf_of_mem (g : Agraph) (u v : String) (d : Option Int)
    (k : String) {m : String} (hm : m ∈ g.names) :
    (g.addEdge u v d k).kindOf m = g.kindOf m := by
  have hsome := (mem_names_find?_isSome g m).1 hm
  unfold Agraph.kindOf
  rw [addEdge_nodes]
  simp only
  by_cases h1 : g.names.contains u
  · rw [if_pos h1]
    by_cases h2 : ((g.nodes.map (fun p => p.1)).contains v)
    · rw [if_pos h2]
    · rw [if_neg h2, find?_append_of_isSome hsome]
  · rw [if_neg h1]
    have hsome2 : ((g.nodes ++ [(u, "")]).find? (fun p => p.1 == m)).isSome := by
      rw [find?_append_of_isSome hsome]
      exact hsome
    by_cases h2 : (((g.nodes ++ [(u, "")]).map (fun p => p.1)).contains v)
    · rw [if_pos h2, find?_append_of_isSome hsome]
    · rw [if_neg h2, find?_append_of_isSome hsome2, find?_append_of_isSome hsome]

theorem kindOf_mem_names {g : Agraph} {m : String} {k : String}
    (h : g.kindOf m = some k) : m ∈ g.names := by
  rw [mem_names_find?_isSome]
  unfold Agraph.kindOf at h
  cases hf : g.nodes.find? (fun p => p.1 == m) with
  | some p => rfl
  | none => rw [hf] at h; cases h

theorem mergeNode_fst {acc : List (String × String)} {p q : String × String}
    (h : q ∈ mergeNode acc p) : q.1 ∈ acc.map Prod.fst ∨ q.1 = p.1 := by
  unfold mergeNode at h
  by_cases hc : acc.any (fun q2 => q2.1 == p.1)
  · rw [if_pos hc] at h
    obtain ⟨q2, hq2, hmap⟩ := List.mem_map.1 h
    by_cases hq : q2.1 = p.1
    · rw [if_pos hq] at hmap
      right
      rw [← hmap]
      exact hq
    · rw [if_neg hq] at hmap
      left
      rw [← hmap]
      exact List.mem_map_of_mem _ hq2
  · rw [if_neg hc] at h
    rcases List.mem_append.1 h with h | h
    · exact Or.inl (List.mem_map_of_mem _ h)
    · right
      rw [List.mem_singleton.1 h]

theorem foldl_mergeNode_fst (l : List (String × String)) :
    ∀ (acc : List (String × String)) (q : String × String),
      q ∈ l.foldl mergeNode acc →
      q.1 ∈ acc.map Prod.fst ∨ q.1 ∈ l.map Prod.fst := by
  induction l with
  | nil => exact fun acc q h => Or.inl (List.mem_map_of_mem _ h)
  | cons a t ih =>
    intro acc q h
    simp only [List.foldl_cons] at h
    rcases ih (mergeNode acc a) q h with h2 | h2
    · obtain ⟨q2, hq2, hfst⟩ := List.mem_map.1 h2
      rcases mergeNode_fst hq2 with h3 | h3
      · exact Or.inl (hfst ▸ h3)
      · right
        rw [List.map_cons, ← hfst, h3]
        exact List.mem_cons_self _ _
    · right
      rw [List.map_cons]
      exact List.mem_cons_of_mem _ h2

theorem mergeEdge_pair_kept {acc : List Gedge} (e2 : Gedge) {u v : String}
    (h : ∃ e ∈ acc, sameEnds e u v = true) :
    ∃ e ∈ mergeEdge acc e2, sameEnds e u v = true := by
  obtain ⟨e, he, hse⟩ := h
  unfold mergeEdge
  by_cases hc : acc.any (fun e0 => sameEnds e0 e2.src e2.dst)
  · rw [if_pos hc]
    refine ⟨if sameEnds e e2.src e2.dst then
      { e with date := e2.date, kind := e2.kind } else e,
      List.mem_map_of_mem _ he, ?_⟩
    by_cases h2 : sameEnds e e2.src e2.dst = true
    · rw [if_pos h2]; exact hse
    · rw [if_neg h2]; exact hse
  · rw [if_neg hc]
    exact ⟨e, List.mem_append_left _ he, hse⟩

theorem mergeEdge_pair_new (acc : List Gedge) (e2 : Gedge) :
    ∃ e ∈ mergeEdge acc e2, sameEnds e e2.src e2.dst = true := by
  unfold mergeEdge
  by_cases hc : acc.any (fun e0 => sameEnds e0 e2.src e2.dst)
  · rw [if_pos hc]
    obtain ⟨e, he, hse⟩ := List.any_eq_true.1 hc
    exact ⟨{ e with date := e2.date, kind := e2.kind },
      List.mem_map.2 ⟨e, he, by rw [if_pos hse]⟩, hse⟩
  · rw [if_neg hc]
    exact ⟨e2, List.mem_append_right _ (List.mem_singleton.2 rfl),
      by simp [sameEnds]⟩

theorem foldl_mergeEdge_pair_kept (l : List Gedge) :
    ∀ (acc : List Gedge) (u v : String),
      (∃ e ∈ acc, sameEnds e u v = true) →
      ∃ e ∈ l.foldl mergeEdge acc, sameEnds e u v = true := by
  induction l with
  | nil => exact fun acc u v h => h
  | cons a t ih =>
    intro acc u v h
    simp only [List.foldl_cons]
    exact ih _ u v (mergeEdge_pair_kept a h)

theorem foldl_mergeEdge_pair (l : List Gedge) :
    ∀ (acc : List Gedge) (e : Gedge), e ∈ l →
      ∃ e2 ∈ l.foldl mergeEdge acc, sameEnds e2 e.src e.dst = true := by
  induction l with
  | nil => intro acc e h; cases h
  | cons a t ih =>
    intro acc e h
    simp only [List.foldl_cons]
    rcases List.mem_cons.1 h with h2 | h2
    · subst h2
      exact foldl_mergeEdge_pair_kept t _ e.src e.dst (mergeEdge_pair_new acc e)
    · exact ih _ e h2

theorem rename_nodes_noIsolates (g : Agraph) (m : List (String × String))
    (h : g.NoIsolates) : (g.rename_nodes m).NoIsolates := by
  unfold Agraph.rename_nodes
  by_cases hm : m.isEmpty
  · rw [if_pos hm]; exact h
  · rw [if_neg hm]
    intro p hp
    simp only at hp
    have hcls := foldl_mergeNode_fst
      (g.nodes.map (fun p0 => (applyMap m p0.1, p0.2))) [] p hp
    rcases hcls with h2 | h2
    · cases h2
    · rw [List.map_map] at h2
      obtain ⟨p0, hp0, hfst⟩ := List.mem_map.1 h2
      obtain ⟨e, he, hinc⟩ := h p0 hp0
      have hpair := foldl_mergeEdge_pair (g.edges.map (mapEdge m)) []
        (mapEdge m e) (List.mem_map_of_mem _ he)
      obtain ⟨e2, he2, hse2⟩ := hpair
      refine ⟨e2, he2, ?_⟩
      have hfst2 : applyMap m p0.1 = p.1 := hfst
      show e2.src = p.1 ∨ e2.dst = p.1
      rcases sameEnds_iff.1 hse2 with ⟨h3, h4⟩ | ⟨h3, h4⟩ <;>
        rcases hinc with h5 | h5
      · refine Or.inl ?_
        rw [h3]
        show applyMap m e.src = p.1
        rw [h5, hfst2]
      · refine Or.inr ?_
        rw [h4]
        show applyMap m e.dst = p.1
        rw [h5, hfst2]
      · refine Or.inr ?_
        rw [h4]
        show applyMap m e.src = p.1
        rw [h5, hfst2]
      · refine Or.inl ?_
        rw [h3]
        show applyMap m e.dst = p.1
        rw [h5, hfst2]

theorem contains_iff (l : List String) (x : String) :
    l.contains x = true ↔ x ∈ l :=
  List.elem_iff

theorem mem_removeNodesFrom_nodes {g : Agraph} {ns : List String}
    {p : String × String} :
    p ∈ (g.removeNodesFrom ns).nodes ↔ p ∈ g.nodes ∧ p.1 ∉ ns := by
  unfold Agraph.removeNodesFrom
  rw [List.mem_filter]
  simp only [Bool.not_eq_true']
  constructor
  · rintro ⟨h1, h2⟩
    refine ⟨h1, fun hc => ?_⟩
    rw [(contains_iff ns p.1).2 hc] at h2
    cases h2
  · rintro ⟨h1, h2⟩
    refine ⟨h1, ?_⟩
    cases hc : ns.contains p.1 with
    | false => rfl
    | true => exact absurd ((contains_iff ns p.1).1 hc) h2

theorem mem_removeNodesFrom_edges {g : Agraph} {ns : List String} {e : Gedge} :
    e ∈ (g.removeNodesFrom ns).edges ↔ e ∈ g.edges ∧ e.src ∉ ns ∧ e.dst ∉ ns := by
  unfold Agraph.removeNodesFrom
  rw [List.mem_filter]
  simp only [Bool.not_eq_true', Bool.or_eq_false_iff]
  constructor
  · rintro ⟨h1, h2, h3⟩
    refine ⟨h1, fun hc => ?_, fun hc => ?_⟩
    · rw [(contains_iff ns e.src).2 hc] at h2
      cases h2
    · rw [(contains_iff ns e.dst).2 hc] at h3
      cases h3
  · rintro ⟨h1, h2, h3⟩
    refine ⟨h1, ?_, ?_⟩
    · cases hc : ns.contains e.src with
      | false => rfl
      | true => exact absurd ((contains_iff ns e.src).1 hc) h2
    · cases hc : ns.contains e.dst with
      | false => rfl
      | true => exact absurd ((contains_iff ns e.dst).1 hc) h3

theorem mem_removeNodesFrom_names {g : Agraph} {ns : List String} {n : String} :
    n ∈ (g.removeNodesFrom ns).names ↔ n ∈ g.names ∧ n ∉ ns := by
  unfold Agraph.names
  constructor
  · intro h
    obtain ⟨p, hp, hfst⟩ := List.mem_map.1 h
    obtain ⟨h1, h2⟩ := mem_removeNodesFrom_nodes.1 hp
    exact ⟨List.mem_map.2 ⟨p, h1, hfst⟩, hfst ▸ h2⟩
  · rintro ⟨h1, h2⟩
    obtain ⟨p, hp, hfst⟩ := List.mem_map.1 h1
    exact List.mem_map.2 ⟨p, mem_removeNodesFrom_nodes.2 ⟨hp, hfst ▸ h2⟩, hfst⟩

theorem mem_isolates {g : Agraph} {q : String} :
    q ∈ g.isolates ↔ q ∈ g.names ∧ ¬ g.Incident q := by
  unfold Agraph.isolates Agraph.names Agraph.Incident
  constructor
  · intro h
    obtain ⟨p, hp, hfst⟩ := List.mem_map.1 h
    obtain ⟨hp1, hp2⟩ := List.mem_filter.1 hp
    refine ⟨List.mem_map.2 ⟨p, hp1, hfst⟩, ?_⟩
    rintro ⟨e, he, hinc⟩
    rw [Bool.not_eq_true'] at hp2
    have := List.any_eq_false.1 hp2 e he
    apply this
    rw [Bool.or_eq_true]
    rcases hinc with h2 | h2
    · exact Or.inl (beq_iff_eq.2 (hfst ▸ h2))
    · exact Or.inr (beq_iff_eq.2 (hfst ▸ h2))
  · rintro ⟨h1, h2⟩
    obtain ⟨p, hp, hfst⟩ := List.mem_map.1 h1
    refine List.mem_map.2 ⟨p, List.mem_filter.2 ⟨hp, ?_⟩, hfst⟩
    rw [Bool.not_eq_true']
    rw [List.any_eq_false]
    intro e he hbeq
    rw [Bool.or_eq_true] at hbeq
    rcases hbeq with hb | hb
    · exact h2 ⟨e, he, Or.inl (hfst ▸ beq_iff_eq.1 hb)⟩
    · exact h2 ⟨e, he, Or.inr (hfst ▸ beq_iff_eq.1 hb)⟩

theorem remove_nodes_nil (g : Agraph) : g.remove_nodes [] = g := by
  unfold Agraph.remove_nodes
  rfl

theorem remove_nodes_noIsolates (g : Agraph) (ns : List String) (hns : ns ≠ []) :
    (g.remove_nodes ns).NoIsolates := by
  unfold Agraph.remove_nodes
  rw [if_neg (by
    intro hc
    exact hns (List.isEmpty_iff.1 hc))]
  intro p hp
  obtain ⟨hp1, hp2⟩ := mem_removeNodesFrom_nodes.1 hp
  have hinc : (g.removeNodesFrom ns).Incident p.1 := by
    by_contra hni
    exact hp2 (mem_isolates.2
      ⟨List.mem_map.2 ⟨p, hp1, rfl⟩, hni⟩)
  obtain ⟨e, he, hie⟩ := hinc
  refine ⟨e, ?_, hie⟩
  rw [mem_removeNodesFrom_edges]
  refine ⟨he, ?_, ?_⟩
  · intro hmem
    exact (mem_isolates.1 hmem).2 ⟨e, he, Or.inl rfl⟩
  · intro hmem
    exact (mem_isolates.1 hmem).2 ⟨e, he, Or.inr rfl⟩

theorem remove_nodes_preserves_noIsolates (g : Agraph) (ns : List String)
    (h : g.NoIsolates) : (g.remove_nodes ns).NoIsolates := by
  cases hns : ns with
  | nil => rw [remove_nodes_nil]; exact h
  | cons a t => exact remove_nodes_noIsolates g (a :: t) (by simp)

theorem remove_nodes_stale (g : Agraph) (ns : List String) (n : String)
    (hn : n ∈ g.names) (hNI : g.NoIsolates)
    (hstale : ∀ e ∈ g.edges, e.inc n → (e.src ∈ ns ∨ e.dst ∈ ns)) :
    n ∉ (g.remove_nodes ns).names := by
  have hnempty : ns ≠ [] := by
    intro hc
    subst hc
    obtain ⟨p, hp, hfst⟩ := List.mem_map.1 hn
    obtain ⟨e, he, hinc⟩ := hNI p hp
    rcases hstale e he (by rw [hfst] at hinc; exact hinc) with h | h <;> cases h
  unfold Agraph.remove_nodes
  rw [if_neg (by
    intro hc
    exact hnempty (List.isEmpty_iff.1 hc))]
  intro hmem
  rw [mem_removeNodesFrom_names] at hmem
  obtain ⟨hmem1, hmem2⟩ := hmem
  have hmem1b := hmem1
  rw [mem_removeNodesFrom_names] at hmem1b
  obtain ⟨hg, hns2⟩ := hmem1b
  apply hmem2
  rw [mem_isolates]
  refine ⟨hmem1, ?_⟩
  rintro ⟨e, he, hinc⟩
  rw [mem_removeNodesFrom_edges] at he
  rcases hstale e he.1 hinc with h | h
  · exact he.2.1 h
  · exact he.2.2 h

theorem addNode_pair (g : Agraph) (n k : String) {u v : String}
    (h : ∃ e ∈ g.edges, sameEnds e u v = true) :
    ∃ e ∈ (g.addNode n k).edges, sameEnds e u v = true := by
  rw [addNode_edges]
  exact h

theorem addEdge_pair_kept (g : Agraph) (u2 v2 : String) (d : Option Int)
    (k : String) {u v : String} (h : ∃ e ∈ g.edges, sameEnds e u v = true) :
    ∃ e ∈ (g.addEdge u2 v2 d k).edges, sameEnds e u v = true := by
  obtain ⟨e, he, hse⟩ := h
  rw [addEdge_edges]
  by_cases hc : g.edges.any (fun e => sameEnds e u2 v2)
  · rw [if_pos hc]
    by_cases h2 : sameEnds e u2 v2 = true
    · exact ⟨{ e with date := d, kind := k },
        List.mem_map.2 ⟨e, he, by rw [if_pos h2]⟩, hse⟩
    · exact ⟨e, List.mem_map.2 ⟨e, he, by rw [if_neg h2]⟩, hse⟩
  · rw [if_neg hc]
    exact ⟨e, List.mem_append_left _ he, hse⟩

theorem addEdge_pair_self (g : Agraph) (u v : String) (d : Option Int)
    (k : String) : ∃ e ∈ (g.addEdge u v d k).edges, sameEnds e u v = true := by
  obtain ⟨e, he, hse, h1, h2⟩ := addEdge_hasEdge_self g u v d k
  exact ⟨e, he, hse⟩

theorem pair_incident {g : Agraph} {u v : String}
    (h : ∃ e ∈ g.edges, sameEnds e u v = true) :
    g.Incident u ∧ g.Incident v := by
  obtain ⟨e, he, hse⟩ := h
  rcases sameEnds_iff.1 hse with ⟨h1, h2⟩ | ⟨h1, h2⟩
  · exact ⟨⟨e, he, Or.inl h1⟩, ⟨e, he, Or.inr h2⟩⟩
  · exact ⟨⟨e, he, Or.inr h2⟩, ⟨e, he, Or.inl h1⟩⟩

theorem foldl_addNode_pair (l : List String) (k : String) :
    ∀ (g : Agraph) {u v : String}, (∃ e ∈ g.edges, sameEnds e u v = true) →
      ∃ e ∈ (l.foldl (fun h f => h.addNode f k) g).edges, sameEnds e u v = true := by
  induction l with
  | nil => exact fun g u v h => h
  | cons f t ih =>
    intro g u v h
    simp only [List.foldl_cons]
    exact ih _ (addNode_pair g f k h)

theorem foldl_addEdge_pair (l : List String) (c : String) (d : Option Int)
    (k : String) :
    ∀ (g : Agraph) {u v : String}, (∃ e ∈ g.edges, sameEnds e u v = true) →
      ∃ e ∈ (l.foldl (fun h x => h.addEdge c x d k) g).edges,
        sameEnds e u v = true := by
  induction l with
  | nil => exact fun g u v h => h
  | cons x t ih =>
    intro g u v h
    simp only [List.foldl_cons]
    exact ih _ (addEdge_pair_kept g c x d k h)

theorem foldl_addEdge_pair_each (l : List String) (c : String) (d : Option Int)
    (k : String) :
    ∀ (g : Agraph) (x : String), x ∈ l →
      ∃ e ∈ (l.foldl (fun h y => h.addEdge c y d k) g).edges,
        sameEnds e c x = true := by
  induction l with
  | nil => intro g x h; cases h
  | cons y t ih =>
    intro g x h
    simp only [List.foldl_cons]
    rcases List.mem_cons.1 h with h2 | h2
    · subst h2
      exact foldl_addEdge_pair t c d k _ (addEdge_pair_self g c x d k)
    · exact ih _ x h2

theorem addNode_incident_fold (l : List String) (k : String) :
    ∀ (g : Agraph) (m : String), g.Incident m →
      (l.foldl (fun h f => h.addNode f k) g).Incident m := by
  induction l with
  | nil => exact fun g m h => h
  | cons f t ih =>
    intro g m h
    simp only [List.foldl_cons]
    exact ih _ m (addNode_incident f k h)

theorem addEdge_incident_fold (l : List String) (c : String) (d : Option Int)
    (k : String) :
    ∀ (g : Agraph) (m : String), g.Incident m →
      (l.foldl (fun h x => h.addEdge c x d k) g).Incident m := by
  induction l with
  | nil => exact fun g m h => h
  | cons x t ih =>
    intro g m h
    simp only [List.foldl_cons]
    exact ih _ m (addEdge_incident c x d k h)

theorem addNode_names_sub {g : Agraph} {n k m : String}
    (h : m ∈ (g.addNode n k).names) : m ∈ g.names ∨ m = n := by
  unfold Agraph.addNode at h
  by_cases hc : g.names.contains n
  · rw [if_pos hc] at h
    obtain ⟨p, hp, hfst⟩ := List.mem_map.1 h
    obtain ⟨p2, hp2, hmap⟩ := List.mem_map.1 hp
    by_cases hpn : p2.1 = n
    · rw [if_pos hpn] at hmap
      right
      rw [← hfst, ← hmap]
    · rw [if_neg hpn] at hmap
      left
      rw [← hfst, ← hmap]
      exact List.mem_map_of_mem _ hp2
  · rw [if_neg hc] at h
    obtain ⟨p, hp, hfst⟩ := List.mem_map.1 h
    rcases List.mem_append.1 hp with h2 | h2
    · exact Or.inl (List.mem_map.2 ⟨p, h2, hfst⟩)
    · right
      rw [← hfst, List.mem_singleton.1 h2]

theorem addEdge_names_sub {g : Agraph} {u v : String} {d : Option Int}
    {k : String} {m : String} (h : m ∈ (g.addEdge u v d k).names) :
    m ∈ g.names ∨ m = u ∨ m = v := by
  unfold Agraph.addEdge at h
  simp only at h
  obtain ⟨p, hp, hfst⟩ := List.mem_map.1 h
  by_cases h1 : g.names.contains u
  · rw [if_pos h1] at hp
    by_cases h2 : ((g.nodes.map (fun p => p.1)).contains v)
    · rw [if_pos h2] at hp
      exact Or.inl (List.mem_map.2 ⟨p, hp, hfst⟩)
    · rw [if_neg h2] at hp
      rcases List.mem_append.1 hp with h3 | h3
      · exact Or.inl (List.mem_map.2 ⟨p, h3, hfst⟩)
      · right; right
        rw [← hfst, List.mem_singleton.1 h3]
  · rw [if_neg h1] at hp
    by_cases h2 : (((g.nodes ++ [(u, "")]).map (fun p => p.1)).contains v)
    · rw [if_pos h2] at hp
      rcases List.mem_append.1 hp with h3 | h3
      · exact Or.inl (List.mem_map.2 ⟨p, h3, hfst⟩)
      · right; left
        rw [← hfst, List.mem_singleton.1 h3]
    · rw [if_neg h2] at hp
      rcases List.mem_append.1 hp with h3 | h3
      · rcases List.mem_append.1 h3 with h4 | h4
        · exact Or.inl (List.mem_map.2 ⟨p, h4, hfst⟩)
        · right; left
          rw [← hfst, List.mem_singleton.1 h4]
      · right; right
        rw [← hfst, List.mem_singleton.1 h3]

theorem foldl_addNode_names_sub (l : List String) (k : String) :
    ∀ (g : Agraph) (m : String),
      m ∈ (l.foldl (fun h f => h.addNode f k) g).names →
      m ∈ g.names ∨ m ∈ l := by
  induction l with
  | nil => exact fun g m h => Or.inl h
  | cons f t ih =>
    intro g m h
    simp only [List.foldl_cons] at h
    rcases ih _ m h with h2 | h2
    · rcases addNode_names_sub h2 with h3 | h3
      · exact Or.inl h3
      · exact Or.inr (h3 ▸ List.mem_cons_self _ _)
    · exact Or.inr (List.mem_cons_of_mem _ h2)

theorem foldl_addEdge_names_sub (l : List String) (c : String) (d : Option Int)
    (k : String) :
    ∀ (g : Agraph) (m : String),
      m ∈ (l.foldl (fun h x => h.addEdge c x d k) g).names →
      m ∈ g.names ∨ m = c ∨ m ∈ l := by
  induction l with
  | nil => exact fun g m h => Or.inl h
  | cons x t ih =>
    intro g m h
    simp only [List.foldl_cons] at h
    rcases ih _ m h with h2 | h2 | h2
    · rcases addEdge_names_sub h2 with h3 | h3 | h3
      · exact Or.inl h3
      · exact Or.inr (Or.inl h3)
      · exact Or.inr (Or.inr (h3 ▸ List.mem_cons_self _ _))
    · exact Or.inr (Or.inl h2)
    · exact Or.inr (Or.inr (List.mem_cons_of_mem _ h2))


theorem insert_change_set_noIsolates (g : Agraph) (cs : ChangeSet)
    (h : g.NoIsolates) : (insert_change_set g cs).NoIsolates := by
  intro q hq
  unfold insert_change_set at hq ⊢
  set g5 := ((g.addNode cs.commit_hash kChangeSet).addNode cs.author
    kDeveloper).addEdge cs.author cs.commit_hash none kCommit with hg5
  set g6 := (files_add_modify cs).foldl (fun h f => h.addNode f kFile) g5
    with hg6
  set g7 := (files_add_modify cs).foldl
    (fun h f => h.addEdge cs.commit_hash f (some cs.date) kInclude) g6 with hg7
  set g8 := cs.issues.foldl (fun h i => h.addNode i kIssue) g7 with hg8
  set g9 := cs.issues.foldl
    (fun h i => h.addEdge cs.commit_hash i (some cs.date) kLink) g8 with hg9
  have hpair9 : ∃ e ∈ g9.edges, sameEnds e cs.author cs.commit_hash = true := by
    rw [hg9, hg8, hg7, hg6]
    exact foldl_addEdge_pair _ _ _ _ _ (foldl_addNode_pair _ _ _
      (foldl_addEdge_pair _ _ _ _ _ (foldl_addNode_pair _ _ _
        (addEdge_pair_self ((g.addNode cs.commit_hash kChangeSet).addNode
          cs.author kDeveloper) cs.author cs.commit_hash none kCommit))))
  have hfile9 : ∀ x ∈ files_add_modify cs,
      ∃ e ∈ g9.edges, sameEnds e cs.commit_hash x = true := by
    intro x hx
    rw [hg9, hg8]
    refine foldl_addEdge_pair _ _ _ _ _ (foldl_addNode_pair _ _ _ ?_)
    rw [hg7]
    exact foldl_addEdge_pair_each _ _ _ _ g6 x hx
  have hissue9 : ∀ x ∈ cs.issues,
      ∃ e ∈ g9.edges, sameEnds e cs.commit_hash x = true := by
    intro x hx
    rw [hg9]
    exact foldl_addEdge_pair_each _ _ _ _ g8 x hx
  have hold9 : ∀ m, g.Incident m → g9.Incident m := by
    intro m hm
    rw [hg9]
    apply addEdge_incident_fold
    rw [hg8]
    apply addNode_incident_fold
    rw [hg7]
    apply addEdge_incident_fold
    rw [hg6]
    apply addNode_incident_fold
    rw [hg5]
    exact addEdge_incident _ _ _ _ (addNode_incident _ _ (addNode_incident _ _ hm))
  have hnames : q.1 ∈ g9.names := List.mem_map.2 ⟨q, hq, rfl⟩
  rw [hg9] at hnames
  rcases foldl_addEdge_names_sub cs.issues cs.commit_hash (some cs.date) kLink
      g8 q.1 hnames with h1 | h1 | h1
  rotate_left
  · rw [h1]
    exact (pair_incident hpair9).2
  · exact (pair_incident (hissue9 q.1 h1)).2
  rw [hg8] at h1
  rcases foldl_addNode_names_sub cs.issues kIssue g7 q.1 h1 with h2 | h2
  rotate_left
  · exact (pair_incident (hissue9 q.1 h2)).2
  rw [hg7] at h2
  rcases foldl_addEdge_names_sub (files_add_modify cs) cs.commit_hash
      (some cs.date) kInclude g6 q.1 h2 with h3 | h3 | h3
  rotate_left
  · rw [h3]
    exact (pair_incident hpair9).2
  · exact (pair_incident (hfile9 q.1 h3)).2
  rw [hg6] at h3
  rcases foldl_addNode_names_sub (files_add_modify cs) kFile g5 q.1 h3
    with h4 | h4
  rotate_left
  · exact (pair_incident (hfile9 q.1 h4)).2
  rw [hg5] at h4
  rcases addEdge_names_sub h4 with h5 | h5 | h5
  rotate_left
  · rw [h5]
    exact (pair_incident hpair9).1
  · rw [h5]
    exact (pair_incident hpair9).2
  rcases addNode_names_sub h5 with h6 | h6
  rotate_left
  · rw [h6]
    exact (pair_incident hpair9).1
  rcases addNode_names_sub h6 with h7 | h7
  rotate_left
  · rw [h7]
    exact (pair_incident hpair9).2
  obtain ⟨p0, hp0, hfst0⟩ := List.mem_map.1 h7
  exact hold9 q.1 (hfst0 ▸ h p0 hp0)

theorem add_change_set_noIsolates (limit : Nat) (g : Agraph) (cs : ChangeSet)
    (h : g.NoIsolates) : (add_change_set limit g cs).NoIsolates := by
  unfold add_change_set
  have h1 := rename_nodes_noIsolates g (files_rename cs) h
  have h2 := remove_nodes_preserves_noIsolates _ (files_delete cs) h1
  by_cases hskip : limit < (files_add_modify cs).length
  · rw [if_pos hskip]
    exact h2
  · rw [if_neg hskip]
    exact insert_change_set_noIsolates _ cs h2

theorem add_change_sets_noIsolates (limit : Nat) (css : List ChangeSet) :
    ∀ (g : Agraph), g.NoIsolates → (add_change_sets limit g css).NoIsolates := by
  induction css with
  | nil => exact fun g h => h
  | cons cs t ih =>
    intro g h
    unfold add_change_sets at *
    simp only [List.foldl_cons]
    exact ih _ (add_change_set_noIsolates limit g cs h)

/-- Claim C2: after a successful forward_graph_one_day no node survives
whose edges all came from the change sets leaving the window: each evicted
ChangeSet node is removed, every node whose incident edges all touch
evicted change-set nodes becomes an isolate and is pruned, and the
resulting graph again has no isolated node, so the window invariant is
preserved by every advance. -/
theorem forward_evicts_stale_nodes (limit : Nat) (g : Agraph)
    (removed added : List ChangeSet) (hni : g.NoIsolates) :
    (∀ cs ∈ removed, cs.commit_hash ∉ (remove_change_sets g removed).names) ∧
    (∀ n ∈ g.names,
      (∀ e ∈ g.edges, e.inc n →
        (e.src ∈ removed.map (fun cs => cs.commit_hash) ∨
         e.dst ∈ removed.map (fun cs => cs.commit_hash))) →
      n ∉ (remove_change_sets g removed).names) ∧
    (forward_graph_one_day limit g removed added).NoIsolates := by
  refine ⟨?_, ?_, ?_⟩
  · intro cs hcs hmem
    unfold remove_change_sets Agraph.remove_nodes at hmem
    rw [if_neg (by
      intro hc
      rw [List.isEmpty_iff] at hc
      rw [List.map_eq_nil_iff] at hc
      rw [hc] at hcs
      cases hcs)] at hmem
    rw [mem_removeNodesFrom_names, mem_removeNodesFrom_names] at hmem
    exact hmem.1.2 (List.mem_map_of_mem _ hcs)
  · intro n hn hstale
    exact remove_nodes_stale g (removed.map (fun cs => cs.commit_hash)) n
      hn hni hstale
  · unfold forward_graph_one_day
    exact add_change_sets_noIsolates limit added _
      (remove_nodes_preserves_noIsolates g _ hni)

/-- Closed witness for claim C2: in the graph gW2 (commit c1 by alice
including file A), evicting c1 removes the c1 node and the file A, whose
only edge came from c1, and the advance leaves no isolated node. -/
theorem forward_evicts_stale_nodes_w :
    gW2.NoIsolates ∧
    "c1" ∉ (remove_change_sets gW2 [csO]).names ∧
    "A" ∉ (remove_change_sets gW2 [csO]).names := by
  have hni : gW2.NoIsolates := by
    intro p hp
    unfold Agraph.Incident
    fin_cases hp
    · exact ⟨⟨"alice", "c1", none, kCommit⟩, by decide, Or.inr rfl⟩
    · exact ⟨⟨"alice", "c1", none, kCommit⟩, by decide, Or.inl rfl⟩
    · exact ⟨⟨"c1", "A", some 0, kInclude⟩, by decide, Or.inr rfl⟩
  have h := forward_evicts_stale_nodes 50 gW2 [csO] [] hni
  refine ⟨hni, h.1 csO (by decide), h.2.1 "A" (by decide) ?_⟩
  intro e he hinc
  fin_cases he
  · rcases hinc with h2 | h2 <;> exact absurd h2 (by decide)
  · exact Or.inl (by decide)

theorem addNode_kindOf_same {g : Agraph} {m k : String} (y : String)
    (h : g.kindOf m = some k) : (g.addNode y k).kindOf m = some k := by
  by_cases hm : y = m
  · subst hm
    exact addNode_kindOf_self g y k
  · rw [addNode_kindOf_ne g y k m (fun hc => hm hc.symm)]
    exact h

theorem foldl_addNode_kindOf_same (l : List String) (k : String) :
    ∀ (g : Agraph) (m : String), g.kindOf m = some k →
      (l.foldl (fun h f => h.addNode f k) g).kindOf m = some k := by
  induction l with
  | nil => exact fun g m h => h
  | cons f t ih =>
    intro g m h
    simp only [List.foldl_cons]
    exact ih _ m (addNode_kindOf_same f h)

theorem foldl_addNode_kindOf_mem (l : List String) (k : String) :
    ∀ (g : Agraph) (x : String), x ∈ l →
      (l.foldl (fun h f => h.addNode f k) g).kindOf x = some k := by
  induction l with
  | nil => intro g x h; cases h
  | cons f t ih =>
    intro g x h
    simp only [List.foldl_cons]
    rcases List.mem_cons.1 h with h2 | h2
    · subst h2
      exact foldl_addNode_kindOf_same t k _ x (addNode_kindOf_self g x k)
    · exact ih _ x h2

theorem foldl_addNode_kindOf_ne (l : List String) (k : String) :
    ∀ (g : Agraph) (m : String), m ∉ l →
      (l.foldl (fun h f => h.addNode f k) g).kindOf m = g.kindOf m := by
  induction l with
  | nil => exact fun g m h => rfl
  | cons f t ih =>
    intro g m h
    simp only [List.foldl_cons]
    rw [ih _ m (fun hc => h (List.mem_cons_of_mem _ hc))]
    exact addNode_kindOf_ne g f k m (fun hc => h (hc ▸ List.mem_cons_self _ _))

theorem addNode_names_mono {g : Agraph} {m : String} (n k : String)
    (h : m ∈ g.names) : m ∈ (g.addNode n k).names := by
  obtain ⟨p, hp, hfst⟩ := List.mem_map.1 h
  unfold Agraph.addNode
  by_cases hc : g.names.contains n
  · rw [if_pos hc]
    refine List.mem_map.2 ⟨if p.1 = n then (n, k) else p,
      List.mem_map_of_mem _ hp, ?_⟩
    by_cases h2 : p.1 = n
    · rw [if_pos h2]
      rw [← h2]
      exact hfst
    · rw [if_neg h2]
      exact hfst
  · rw [if_neg hc]
    exact List.mem_map.2 ⟨p, List.mem_append_left _ hp, hfst⟩

theorem addEdge_names_mono {g : Agraph} {m : String} (u v : String)
    (d : Option Int) (k : String) (h : m ∈ g.names) :
    m ∈ (g.addEdge u v d k).names := by
  obtain ⟨p, hp, hfst⟩ := List.mem_map.1 h
  unfold Agraph.addEdge
  simp only
  refine List.mem_map.2 ⟨p, ?_, hfst⟩
  by_cases h1 : g.names.contains u
  · rw [if_pos h1]
    by_cases h2 : ((g.nodes.map (fun p => p.1)).contains v)
    · rw [if_pos h2]
      exact hp
    · rw [if_neg h2]
      exact List.mem_append_left _ hp
  · rw [if_neg h1]
    by_cases h2 : (((g.nodes ++ [(u, "")]).map (fun p => p.1)).contains v)
    · rw [if_pos h2]
      exact List.mem_append_left _ hp
    · rw [if_neg h2]
      exact List.mem_append_left _ (List.mem_append_left _ hp)

theorem foldl_addEdge_kindOf (l : List String) (c : String) (d : Option Int)
    (k : String) :
    ∀ (g : Agraph) (m : String), m ∈ g.names →
      m ∈ (l.foldl (fun h x => h.addEdge c x d k) g).names ∧
      (l.foldl (fun h x => h.addEdge c x d k) g).kindOf m = g.kindOf m := by
  induction l with
  | nil => exact fun g m h => ⟨h, rfl⟩
  | cons x t ih =>
    intro g m h
    simp only [List.foldl_cons]
    obtain ⟨h1, h2⟩ := ih _ m (addEdge_names_mono c x d k h)
    exact ⟨h1, by rw [h2, addEdge_kindOf_of_mem g c x d k h]⟩

theorem addNode_hasEdge {g : Agraph} {u v : String} {d : Option Int}
    {k : String} (n k2 : String) (h : g.hasEdgeAttr u v d k) :
    (g.addNode n k2).hasEdgeAttr u v d k := by
  unfold Agraph.hasEdgeAttr at *
  rw [addNode_edges]
  exact h

theorem foldl_addNode_hasEdge (l : List String) (k2 : String) :
    ∀ (g : Agraph) {u v : String} {d : Option Int} {k : String},
      g.hasEdgeAttr u v d k →
      (l.foldl (fun h f => h.addNode f k2) g).hasEdgeAttr u v d k := by
  induction l with
  | nil => exact fun g u v d k h => h
  | cons f t ih =>
    intro g u v d k h
    simp only [List.foldl_cons]
    exact ih _ (addNode_hasEdge f k2 h)

theorem foldl_addEdge_hasEdge_same (l : List String) (c : String)
    (d : Option Int) (k : String) :
    ∀ (g : Agraph) {u v : String}, g.hasEdgeAttr u v d k →
      (l.foldl (fun h x => h.addEdge c x d k) g).hasEdgeAttr u v d k := by
  induction l with
  | nil => exact fun g u v h => h
  | cons x t ih =>
    intro g u v h
    simp only [List.foldl_cons]
    exact ih _ (addEdge_hasEdge_same g h c x)

theorem foldl_addEdge_hasEdge_other (l : List String) (c : String)
    (d2 : Option Int) (k2 : String) :
    ∀ (g : Agraph) {u v : String} {d : Option Int} {k : String},
      g.hasEdgeAttr u v d k →
      (∀ x ∈ l, ¬ ((c = u ∧ x = v) ∨ (c = v ∧ x = u))) →
      (l.foldl (fun h x => h.addEdge c x d2 k2) g).hasEdgeAttr u v d k := by
  induction l with
  | nil => exact fun g u v d k h h2 => h
  | cons x t ih =>
    intro g u v d k h h2
    simp only [List.foldl_cons]
    exact ih _ (addEdge_hasEdge_other g h d2 k2 (h2 x (List.mem_cons_self _ _)))
      (fun y hy => h2 y (List.mem_cons_of_mem _ hy))

theorem foldl_addEdge_hasEdge_each (l : List String) (c : String)
    (d : Option Int) (k : String) :
    ∀ (g : Agraph) (x : String), x ∈ l →
      (l.foldl (fun h y => h.addEdge c y d k) g).hasEdgeAttr c x d k := by
  induction l with
  | nil => intro g x h; cases h
  | cons y t ih =>
    intro g x h
    simp only [List.foldl_cons]
    rcases List.mem_cons.1 h with h2 | h2
    · subst h2
      exact foldl_addEdge_hasEdge_same t c d k _ (addEdge_hasEdge_self g c x d k)
    · exact ih _ x h2

/-- Counterexample for claim C4: a change set touching 51 files, all of
them deletions, is not skipped even though 51 exceeds the default
num_files_limit of 50, because the limit is compared against the number of
added or modified files only; its ChangeSet node, Developer node and
commit edge are inserted. -/
theorem large_delete_changeset_not_skipped :
    csBig.code_changes.length = 51 ∧
    (∀ cc ∈ csBig.code_changes, cc.change_type = sDELETE) ∧
    (csBig.code_changes.map (fun cc => cc.file_path)).Nodup ∧
    (add_change_sets 50 ⟨[], []⟩ [csBig]).kindOf "c" = some kChangeSet ∧
    (add_change_sets 50 ⟨[], []⟩ [csBig]).kindOf "alice" = some kDeveloper := by
  refine ⟨by decide, by decide, by decide, ?_, ?_⟩ <;> decide

/-- Claim C4 (amended): a change set is skipped exactly when its number of
added or modified files exceeds num_files_limit (deleted and renamed files
do not count toward the limit, and its renames and deletions are still
applied); a skipped change set inserts nothing, and a non-skipped change
set inserts its ChangeSet node, its Developer node, a null-dated commit
edge between them, File nodes with dated include edges for every added or
modified file and Issue nodes with dated link edges for every linked
issue. -/
theorem add_change_set_skip_insert (limit : Nat) (g : Agraph) (cs : ChangeSet)
    (hha : cs.author ≠ cs.commit_hash)
    (hhf : cs.commit_hash ∉ files_add_modify cs)
    (haf : cs.author ∉ files_add_modify cs)
    (hhi : cs.commit_hash ∉ cs.issues)
    (hai : cs.author ∉ cs.issues)
    (hfi : ∀ f ∈ files_add_modify cs, f ∉ cs.issues) :
    (limit < (files_add_modify cs).length →
      add_change_set limit g cs =
        (g.rename_nodes (files_rename cs)).remove_nodes (files_delete cs)) ∧
    (¬ limit < (files_add_modify cs).length →
      add_change_set limit g cs =
        insert_change_set
          ((g.rename_nodes (files_rename cs)).remove_nodes (files_delete cs))
          cs ∧
      (add_change_set limit g cs).kindOf cs.commit_hash = some kChangeSet ∧
      (add_change_set limit g cs).kindOf cs.author = some kDeveloper ∧
      (add_change_set limit g cs).hasEdgeAttr cs.author cs.commit_hash
        none kCommit ∧
      (∀ f ∈ files_add_modify cs,
        (add_change_set limit g cs).kindOf f = some kFile ∧
        (add_change_set limit g cs).hasEdgeAttr cs.commit_hash f
          (some cs.date) kInclude) ∧
      (∀ i ∈ cs.issues,
        (add_change_set limit g cs).kindOf i = some kIssue ∧
        (add_change_set limit g cs).hasEdgeAttr cs.commit_hash i
          (some cs.date) kLink)) := by
  constructor
  · intro hskip
    unfold add_change_set
    rw [if_pos hskip]
  · intro hskip
    set G := (g.rename_nodes (files_rename cs)).remove_nodes (files_delete cs)
      with hGdef
    have heq : add_change_set limit g cs = insert_change_set G cs := by
      unfold add_change_set
      rw [if_neg hskip, hGdef]
    have hmain : (insert_change_set G cs).kindOf cs.commit_hash =
          some kChangeSet ∧
        (insert_change_set G cs).kindOf cs.author = some kDeveloper ∧
        (insert_change_set G cs).hasEdgeAttr cs.author cs.commit_hash
          none kCommit ∧
        (∀ f ∈ files_add_modify cs,
          (insert_change_set G cs).kindOf f = some kFile ∧
          (insert_change_set G cs).hasEdgeAttr cs.commit_hash f
            (some cs.date) kInclude) ∧
        (∀ i ∈ cs.issues,
          (insert_change_set G cs).kindOf i = some kIssue ∧
          (insert_change_set G cs).hasEdgeAttr cs.commit_hash i
            (some cs.date) kLink) := by
      unfold insert_change_set
      set g5 := ((G.addNode cs.commit_hash kChangeSet).addNode cs.author
        kDeveloper).addEdge cs.author cs.commit_hash none kCommit with hg5
      set g6 := (files_add_modify cs).foldl (fun h f => h.addNode f kFile) g5
        with hg6
      set g7 := (files_add_modify cs).foldl
        (fun h f => h.addEdge cs.commit_hash f (some cs.date) kInclude) g6
        with hg7
      set g8 := cs.issues.foldl (fun h i => h.addNode i kIssue) g7 with hg8
      -- kind of the ChangeSet node
      have hk4 : ((G.addNode cs.commit_hash kChangeSet).addNode cs.author
          kDeveloper).kindOf cs.commit_hash = some kChangeSet := by
        rw [addNode_kindOf_ne _ cs.author kDeveloper cs.commit_hash
          (fun hc => hha hc.symm)]
        exact addNode_kindOf_self _ _ _
      have hk5 : g5.kindOf cs.commit_hash = some kChangeSet := by
        rw [hg5, addEdge_kindOf_of_mem _ _ _ _ _ (kindOf_mem_names hk4)]
        exact hk4
      have hk6 : g6.kindOf cs.commit_hash = some kChangeSet := by
        rw [hg6, foldl_addNode_kindOf_ne _ _ g5 _ hhf]
        exact hk5
      have hk7 : g7.kindOf cs.commit_hash = some kChangeSet := by
        rw [hg7, (foldl_addEdge_kindOf _ _ _ _ g6 _ (kindOf_mem_names hk6)).2]
        exact hk6
      have hk8 : g8.kindOf cs.commit_hash = some kChangeSet := by
        rw [hg8, foldl_addNode_kindOf_ne _ _ g7 _ hhi]
        exact hk7
      have hk9 : (cs.issues.foldl
          (fun h i => h.addEdge cs.commit_hash i (some cs.date) kLink)
            g8).kindOf cs.commit_hash = some kChangeSet := by
        rw [(foldl_addEdge_kindOf _ _ _ _ g8 _ (kindOf_mem_names hk8)).2]
        exact hk8
      -- kind of the Developer node
      have ha4 : ((G.addNode cs.commit_hash kChangeSet).addNode cs.author
          kDeveloper).kindOf cs.author = some kDeveloper :=
        addNode_kindOf_self _ _ _
      have ha5 : g5.kindOf cs.author = some kDeveloper := by
        rw [hg5, addEdge_kindOf_of_mem _ _ _ _ _ (kindOf_mem_names ha4)]
        exact ha4
      have ha6 : g6.kindOf cs.author = some kDeveloper := by
        rw [hg6, foldl_addNode_kindOf_ne _ _ g5 _ haf]
        exact ha5
      have ha7 : g7.kindOf cs.author = some kDeveloper := by
        rw [hg7, (foldl_addEdge_kindOf _ _ _ _ g6 _ (kindOf_mem_names ha6)).2]
        exact ha6
      have ha8 : g8.kindOf cs.author = some kDeveloper := by
        rw [hg8, foldl_addNode_kindOf_ne _ _ g7 _ hai]
        exact ha7
      have ha9 : (cs.issues.foldl
          (fun h i => h.addEdge cs.commit_hash i (some cs.date) kLink)
            g8).kindOf cs.author = some kDeveloper := by
        rw [(foldl_addEdge_kindOf _ _ _ _ g8 _ (kindOf_mem_names ha8)).2]
        exact ha8
      -- the commit edge
      have he5 : g5.hasEdgeAttr cs.author cs.commit_hash none kCommit := by
        rw [hg5]
        exact addEdge_hasEdge_self _ _ _ _ _
      have he7 : g7.hasEdgeAttr cs.author cs.commit_hash none kCommit := by
        rw [hg7]
        refine foldl_addEdge_hasEdge_other _ _ _ _ g6 ?_ ?_
        · rw [hg6]
          exact foldl_addNode_hasEdge _ _ g5 he5
        · intro f hf hcase
          rcases hcase with ⟨h1, h2⟩ | ⟨h1, h2⟩
          · exact hha h1.symm
          · exact haf (by rw [← h2]; exact hf)
      have he9 : (cs.issues.foldl
          (fun h i => h.addEdge cs.commit_hash i (some cs.date) kLink)
            g8).hasEdgeAttr cs.author cs.commit_hash none kCommit := by
        refine foldl_addEdge_hasEdge_other _ _ _ _ g8 ?_ ?_
        · rw [hg8]
          exact foldl_addNode_hasEdge _ _ g7 he7
        · intro i hi hcase
          rcases hcase with ⟨h1, h2⟩ | ⟨h1, h2⟩
          · exact hha h1.symm
          · exact hai (by rw [← h2]; exact hi)
      refine ⟨hk9, ha9, he9, ?_, ?_⟩
      · intro f hf
        have hf6 : g6.kindOf f = some kFile := by
          rw [hg6]
          exact foldl_addNode_kindOf_mem _ _ g5 f hf
        have hf7 : g7.kindOf f = some kFile := by
          rw [hg7, (foldl_addEdge_kindOf _ _ _ _ g6 _ (kindOf_mem_names hf6)).2]
          exact hf6
        have hf8 : g8.kindOf f = some kFile := by
          rw [hg8, foldl_addNode_kindOf_ne _ _ g7 _ (hfi f hf)]
          exact hf7
        have hf9 : (cs.issues.foldl
            (fun h i => h.addEdge cs.commit_hash i (some cs.date) kLink)
              g8).kindOf f = some kFile := by
          rw [(foldl_addEdge_kindOf _ _ _ _ g8 _ (kindOf_mem_names hf8)).2]
          exact hf8
        have hi7 : g7.hasEdgeAttr cs.commit_hash f (some cs.date) kInclude := by
          rw [hg7]
          exact foldl_addEdge_hasEdge_each _ _ _ _ g6 f hf
        have hi9 : (cs.issues.foldl
            (fun h i => h.addEdge cs.commit_hash i (some cs.date) kLink)
              g8).hasEdgeAttr cs.commit_hash f (some cs.date) kInclude := by
          refine foldl_addEdge_hasEdge_other _ _ _ _ g8 ?_ ?_
          · rw [hg8]
            exact foldl_addNode_hasEdge _ _ g7 hi7
          · intro i hi hcase
            rcases hcase with ⟨h1, h2⟩ | ⟨h1, h2⟩
            · exact hfi f hf (by rw [← h2]; exact hi)
            · exact hhf (by rw [h1]; exact hf)
        exact ⟨hf9, hi9⟩
      · intro i hi
        have hi8 : g8.kindOf i = some kIssue := by
          rw [hg8]
          exact foldl_addNode_kindOf_mem _ _ g7 i hi
        have hi9 : (cs.issues.foldl
            (fun h i => h.addEdge cs.commit_hash i (some cs.date) kLink)
              g8).kindOf i = some kIssue := by
          rw [(foldl_addEdge_kindOf _ _ _ _ g8 _ (kindOf_mem_names hi8)).2]
          exact hi8
        exact ⟨hi9, foldl_addEdge_hasEdge_each _ _ _ _ g8 i hi⟩
    refine ⟨heq, ?_, ?_, ?_, ?_, ?_⟩ <;> rw [heq]
    · exact hmain.1
    · exact hmain.2.1
    · exact hmain.2.2.1
    · exact hmain.2.2.2.1
    · exact hmain.2.2.2.2

/-- Closed witness for the amended claim C4: a one-file change set by bob
with a linked issue inserts its ChangeSet node with kind ChangeSet. -/
theorem add_change_set_skip_insert_w :
    add_change_set 50 (⟨[], []⟩ : Agraph)
        ⟨"c2", "bob", 5, ["i1"], [⟨sADD, "F", ""⟩], 3⟩ =
      insert_change_set
        (((⟨[], []⟩ : Agraph)).rename_nodes
            (files_rename ⟨"c2", "bob", 5, ["i1"], [⟨sADD, "F", ""⟩], 3⟩)
          |>.remove_nodes
            (files_delete ⟨"c2", "bob", 5, ["i1"], [⟨sADD, "F", ""⟩], 3⟩))
        ⟨"c2", "bob", 5, ["i1"], [⟨sADD, "F", ""⟩], 3⟩ ∧
    (add_change_set 50 (⟨[], []⟩ : Agraph)
        ⟨"c2", "bob", 5, ["i1"], [⟨sADD, "F", ""⟩], 3⟩).kindOf "c2" =
      some kChangeSet := by
  have h := (add_change_set_skip_insert 50 (⟨[], []⟩ : Agraph)
    ⟨"c2", "bob", 5, ["i1"], [⟨sADD, "F", ""⟩], 3⟩
    (by decide) (by decide) (by decide) (by decide) (by decide)
    (by decide)).2 (by decide)
  exact ⟨h.1, h.2.1⟩
